import Mathlib

/-!
Verification of the Vulkan-Voxels2 voxel renderer core against its
natural-language specification.

The Rust sources are shallowly embedded: pure functions become Lean
functions; in-place array mutation becomes explicit state passing
(`List`/function updates); machine integers are modelled as `Nat`/`Int`
with explicit `% 2 ^ w` where wrap-around matters; fallible operations
return `Option`.  Every definition is translated from the source file
named in its doc comment; definitions marked `Modelled from the spec:`
stand for items of this repository that are not present under `src/`.
-/

/-- `CHUNK_SIZE` from src/src/world/mod.rs: blocks per chunk edge. -/
def CHUNK_SIZE : Nat := 32

/-- `BLOCKS_PER_CHUNK` from src/src/world/mod.rs. -/
def BLOCKS_PER_CHUNK : Nat := CHUNK_SIZE * CHUNK_SIZE * CHUNK_SIZE

/-- `MAX_VERTICES_PER_CHUNK` from src/src/world/mod.rs. -/
def MAX_VERTICES_PER_CHUNK : Nat := BLOCKS_PER_CHUNK * 18

/-- `MAX_FRAMES_IN_FLIGHT` from src/src/render/renderer.rs. -/
def MAX_FRAMES_IN_FLIGHT : Nat := 2

/-- Modelled from the spec: `REGION_SIZE = 8 chunks per edge`.  The constant
is used by src/src/world/pos.rs but its defining module is not under src/. -/
def REGION_SIZE : Nat := 8

/-- Modelled from the spec: `BlockId — enumeration {Air, Block}`.  The file
src/src/world/blocks.rs is not under src/, but every use site only
distinguishes `BlockId::Air` from the rest. -/
inductive BlockId where
  | Air : BlockId
  | Block : BlockId
deriving DecidableEq

/-- `LocalBlockPos` from src/src/world/pos.rs: block coordinates inside a
chunk, each in `[0, CHUNK_SIZE)` (u8 fields modelled as `Nat`). -/
structure LocalBlockPos where
  x : Nat
  y : Nat
  z : Nat
deriving DecidableEq

namespace LocalBlockPos

/-- `LocalBlockPos::to_index` from src/src/world/pos.rs. -/
def to_index (p : LocalBlockPos) : Nat :=
  (p.x * CHUNK_SIZE + p.y) * CHUNK_SIZE + p.z

/-- Modelled from the spec: `LocalBlockPos.from_index(i).to_index() == i`;
the inverse of the linear index `(x·CHUNK_SIZE + y)·CHUNK_SIZE + z`.
`from_index` is used by src/src/world/chunk.rs but not present in the
src/ copy of pos.rs. -/
def from_index (i : Nat) : LocalBlockPos :=
  ⟨i / (CHUNK_SIZE * CHUNK_SIZE), i / CHUNK_SIZE % CHUNK_SIZE, i % CHUNK_SIZE⟩

end LocalBlockPos

/-- The meshing vertex: a single packed 32-bit word, as built by
`Vertex { data }` in src/src/world/chunk_mesh.rs. -/
structure Vertex where
  data : Nat
deriving DecidableEq

/-- `build_vert` from src/src/world/chunk_mesh.rs lines 81-85:
`pos.0 as u32 | (pos.1 as u32) << 6 | (pos.2 as u32) << 12 | light_modifier << 18`.
The three coordinates are u8 (so < 2^8) and the result is u32; the only
operation that can wrap in u32 is the final shift, hence the `% 2 ^ 32`
on that term. -/
def build_vert (pos : Nat × Nat × Nat) (light_modifier : Nat) : Vertex :=
  ⟨pos.1 ||| (pos.2.1 <<< 6) ||| (pos.2.2 <<< 12) ||| ((light_modifier <<< 18) % 2 ^ 32)⟩

/-- Decoder for the packed vertex word, following the spec wording:
bits 0-5 = x, bits 6-11 = y, bits 12-17 = z, bits 18 and above = light. -/
def unpack_vert (v : Vertex) : Nat × Nat × Nat × Nat :=
  (v.data % 2 ^ 6, (v.data >>> 6) % 2 ^ 6, (v.data >>> 12) % 2 ^ 6, v.data >>> 18)

theorem lor_shiftLeft_eq_add {k : Nat} (a b : Nat) (h : a < 2 ^ k) :
    a ||| b <<< k = 2 ^ k * b + a := by
  apply Nat.eq_of_testBit_eq
  intro j
  rw [Nat.testBit_lor, Nat.testBit_shiftLeft, Nat.testBit_mul_pow_two_add b h j]
  by_cases hj : j < k
  · have : ¬ (j ≥ k) := by omega
    simp [hj, this]
  · have ha : a.testBit j = false := by
      apply Nat.testBit_lt_two_pow
      calc a < 2 ^ k := h
        _ ≤ 2 ^ j := Nat.pow_le_pow_right (by norm_num) (by omega)
    have : j ≥ k := by omega
    simp [hj, this, ha]

theorem build_vert_eq_add (x y z l : Nat) (hx : x < 2 ^ 6) (hy : y < 2 ^ 6)
    (hz : z < 2 ^ 6) (hl : l < 2 ^ 14) :
    (build_vert (x, y, z) l).data = x + y * 2 ^ 6 + z * 2 ^ 12 + l * 2 ^ 18 := by
  unfold build_vert
  have h18 : (l <<< 18) % 2 ^ 32 = l <<< 18 := by
    apply Nat.mod_eq_of_lt
    rw [Nat.shiftLeft_eq]
    calc l * 2 ^ 18 < 2 ^ 14 * 2 ^ 18 := by
          exact Nat.mul_lt_mul_of_lt_of_le hl (le_refl _) (by norm_num)
      _ = 2 ^ 32 := by norm_num
  rw [h18]
  rw [lor_shiftLeft_eq_add x y hx]
  rw [lor_shiftLeft_eq_add _ z (by omega)]
  rw [lor_shiftLeft_eq_add _ l (by omega)]
  ring

/-- C4: for all coordinates x, y, z in `[0, CHUNK_SIZE]` and every light
modifier in the remaining 14 bits, decoding the 32-bit word produced by
`build_vert` (bits 0-5, 6-11, 12-17, 18+) recovers exactly `(x, y, z, l)`;
consequently the packing is injective on these legal inputs. -/
theorem build_vert_unpack_roundtrip :
    (∀ (x y z : Fin (CHUNK_SIZE + 1)) (l : Fin (2 ^ 14)),
      unpack_vert (build_vert (x.val, y.val, z.val) l.val)
        = (x.val, y.val, z.val, l.val)) ∧
    Function.Injective
      (fun p : Fin (CHUNK_SIZE + 1) × Fin (CHUNK_SIZE + 1) × Fin (CHUNK_SIZE + 1)
          × Fin (2 ^ 14) =>
        build_vert (p.1.val, p.2.1.val, p.2.2.1.val) p.2.2.2.val) := by
  have key : ∀ (x y z : Fin (CHUNK_SIZE + 1)) (l : Fin (2 ^ 14)),
      unpack_vert (build_vert (x.val, y.val, z.val) l.val)
        = (x.val, y.val, z.val, l.val) := by
    intro x y z l
    have hx := x.isLt
    have hy := y.isLt
    have hz := z.isLt
    have hl := l.isLt
    simp only [CHUNK_SIZE] at hx hy hz
    rw [unpack_vert, build_vert_eq_add x.val y.val z.val l.val (by omega) (by omega)
      (by omega) (by omega)]
    simp only [Nat.shiftRight_eq_div_pow, Prod.mk.injEq,
      show (2:Nat) ^ 6 = 64 from rfl, show (2:Nat) ^ 12 = 4096 from rfl,
      show (2:Nat) ^ 14 = 16384 from rfl, show (2:Nat) ^ 18 = 262144 from rfl] at hl ⊢
    refine ⟨by omega, by omega, by omega, by omega⟩
  refine ⟨key, ?_⟩
  intro p q hpq
  simp only at hpq
  have h1 := key p.1 p.2.1 p.2.2.1 p.2.2.2
  have h2 := key q.1 q.2.1 q.2.2.1 q.2.2.2
  rw [hpq] at h1
  have heq := h1.symm.trans h2
  obtain ⟨p1, p2, p3, p4⟩ := p
  obtain ⟨q1, q2, q3, q4⟩ := q
  simp only [Prod.mk.injEq] at heq ⊢
  exact ⟨Fin.ext heq.1, Fin.ext heq.2.1, Fin.ext heq.2.2.1, Fin.ext heq.2.2.2⟩

/-- `ChunkPos` from src/src/world/pos.rs: a triple of i64, modelled as ℤ
(no operation below can overflow i64 when the inputs are in i64 range). -/
structure ChunkPos where
  x : Int
  y : Int
  z : Int
deriving DecidableEq

/-- `RegionPos` from src/src/world/pos.rs. -/
structure RegionPos where
  x : Int
  y : Int
  z : Int
deriving DecidableEq

/-- `ChunkPos::region` from src/src/world/pos.rs lines 91-106.  Rust `/` and
`%` on i64 truncate toward zero, i.e. `Int.tdiv` / `Int.tmod`; after the
truncating division the code subtracts 1 on a negative, non-exact axis. -/
def ChunkPos.region (p : ChunkPos) : RegionPos :=
  let x0 := p.x.tdiv (REGION_SIZE : Int)
  let y0 := p.y.tdiv (REGION_SIZE : Int)
  let z0 := p.z.tdiv (REGION_SIZE : Int)
  let x := if p.x < 0 ∧ p.x.tmod (REGION_SIZE : Int) ≠ 0 then x0 - 1 else x0
  let y := if p.y < 0 ∧ p.y.tmod (REGION_SIZE : Int) ≠ 0 then y0 - 1 else y0
  let z := if p.z < 0 ∧ p.z.tmod (REGION_SIZE : Int) ≠ 0 then z0 - 1 else z0
  ⟨x, y, z⟩

theorem region_coord_eq_fdiv (a : Int) :
    (if a < 0 ∧ a.tmod 8 ≠ 0 then a.tdiv 8 - 1 else a.tdiv 8) = a.fdiv 8 := by
  rw [Int.fdiv_eq_ediv a (by norm_num)]
  rcases le_or_lt 0 a with ha | ha
  · rw [Int.tdiv_eq_ediv ha (by norm_num)]
    have hno : ¬ (a < 0 ∧ a.tmod 8 ≠ 0) := fun ⟨h1, _⟩ => absurd ha (by omega)
    rw [if_neg hno]
  · have h1 : a.tdiv 8 = -((-a) / 8) := by
      conv_lhs => rw [show a = -(-a) by ring]
      rw [Int.neg_tdiv, Int.tdiv_eq_ediv (by omega) (by norm_num)]
    have h2 : a.tmod 8 = a + 8 * ((-a) / 8) := by
      rw [Int.tmod_def, h1]; ring
    rw [h1, h2]
    split <;> omega

/-- C5: for every `ChunkPos` over 64-bit signed integers, `region()` is the
coordinatewise mathematical floor division by REGION_SIZE (`Int.fdiv`),
including negative coordinates not divisible by REGION_SIZE. -/
theorem region_eq_floor_div (p : ChunkPos) :
    p.region = ⟨p.x.fdiv (REGION_SIZE : Int), p.y.fdiv (REGION_SIZE : Int),
      p.z.fdiv (REGION_SIZE : Int)⟩ := by
  have h8 : (REGION_SIZE : Int) = 8 := by norm_num [REGION_SIZE]
  cases p with
  | mk x y z =>
    simp only [ChunkPos.region, h8]
    rw [region_coord_eq_fdiv, region_coord_eq_fdiv, region_coord_eq_fdiv]

/-- `EntityPos` from src/src/world/pos.rs: an f32 position plus pitch/yaw.
The f32 coordinates are modelled as ℚ: every finite f32 is a rational, and
in `chunk()` below the only arithmetic performed on them is division by
`CHUNK_SIZE = 32 = 2^5`, which is exact in binary floating point whenever
the quotient's truncation is nonzero (and both sides truncate to 0
otherwise), so the ℚ model agrees with the f32 computation on every finite
input. -/
structure EntityPos where
  pos : Rat × Rat × Rat
  look : Rat × Rat
deriving DecidableEq

/-- Rust's `as i64` cast of a (finite, in-range) float: truncation toward
zero. -/
def ratTrunc (q : Rat) : Int :=
  if q < 0 then ⌈q⌉ else ⌊q⌋

/-- `EntityPos::chunk` from src/src/world/pos.rs lines 186-201:
`(pos / CHUNK_SIZE) as i64` per axis, then minus 1 on each negative axis. -/
def EntityPos.chunk (e : EntityPos) : ChunkPos :=
  let x0 := ratTrunc (e.pos.1 / (CHUNK_SIZE : Rat))
  let y0 := ratTrunc (e.pos.2.1 / (CHUNK_SIZE : Rat))
  let z0 := ratTrunc (e.pos.2.2 / (CHUNK_SIZE : Rat))
  let x := if e.pos.1 < 0 then x0 - 1 else x0
  let y := if e.pos.2.1 < 0 then y0 - 1 else y0
  let z := if e.pos.2.2 < 0 then z0 - 1 else z0
  ⟨x, y, z⟩

/-- C2, counterexample: at the exact negative multiple x = -32 the code
returns -2 on the x axis, while ⌊-32/32⌋ = -1, so `chunk()` does not have
floor-division semantics there. -/
theorem entity_chunk_not_floor_at_neg_multiple :
    EntityPos.chunk ⟨(-32, 0, 0), (0, 0)⟩ ≠
      ⟨⌊(-32 : Rat) / 32⌋, ⌊(0 : Rat) / 32⌋, ⌊(0 : Rat) / 32⌋⟩ := by
  have h1 : ((-32 : Rat) / 32) = ((-1 : Int) : Rat) := by norm_num
  have h2 : ((0 : Rat) / 32) = ((0 : Int) : Rat) := by norm_num
  simp only [EntityPos.chunk, ratTrunc, CHUNK_SIZE, ne_eq, ChunkPos.mk.injEq]
  norm_num [h1, h2, Int.floor_intCast, Int.ceil_intCast]

theorem ratTrunc_of_nonneg {q : Rat} (h : 0 ≤ q) : ratTrunc q = ⌊q⌋ := by
  rw [ratTrunc, if_neg (by simpa using h)]

theorem ceil_eq_floor_add_one_of_fract_ne {q : Rat} (h : Int.fract q ≠ 0) :
    ⌈q⌉ = ⌊q⌋ + 1 := by
  have hne : q ≠ (⌊q⌋ : Rat) := by
    intro he
    apply h
    rw [Int.fract, he]
    simp
  have hlt : (⌊q⌋ : Rat) < q := lt_of_le_of_ne (Int.floor_le q) (Ne.symm hne)
  refine le_antisymm (Int.ceil_le.mpr ?_) ?_
  · push_cast
    exact le_of_lt (Int.lt_floor_add_one q)
  · have : (⌊q⌋ : Rat) < (⌈q⌉ : Rat) := lt_of_lt_of_le hlt (Int.le_ceil q)
    have h2 : ⌊q⌋ < ⌈q⌉ := by exact_mod_cast this
    omega

theorem entity_chunk_coord_eq (q : Rat) :
    (if q < 0 then ratTrunc (q / 32) - 1 else ratTrunc (q / 32)) =
      if q < 0 ∧ Int.fract (q / 32) = 0 then ⌊q / 32⌋ - 1 else ⌊q / 32⌋ := by
  rcases le_or_lt 0 q with hq | hq
  · rw [if_neg (not_lt.mpr hq), if_neg (by simp [not_lt.mpr hq]),
      ratTrunc_of_nonneg (by positivity)]
  · have hq32 : q / 32 < 0 := by
      apply div_neg_of_neg_of_pos hq (by norm_num)
    rw [if_pos hq, ratTrunc, if_pos hq32]
    by_cases hf : Int.fract (q / 32) = 0
    · rw [if_pos ⟨hq, hf⟩]
      have : q / 32 = ((⌊q / 32⌋ : Int) : Rat) := by
        have h := Int.floor_add_fract (q / 32)
        rw [hf, add_zero] at h
        exact h.symm
      rw [this, Int.ceil_intCast, Int.floor_intCast]
    · rw [if_neg (fun hh => hf hh.2), ceil_eq_floor_add_one_of_fract_ne hf]
      ring

/-- C2, amended: `EntityPos::chunk` equals the floor of `pos / 32` on every
axis except a negative axis whose coordinate is an exact multiple of 32
(equivalently, `Int.fract (q/32) = 0`), where it returns floor - 1. -/
theorem entity_chunk_eq_floor_div (px py pz pitch yaw : Rat) :
    EntityPos.chunk ⟨(px, py, pz), (pitch, yaw)⟩ =
      ⟨if px < 0 ∧ Int.fract (px / 32) = 0 then ⌊px / 32⌋ - 1 else ⌊px / 32⌋,
       if py < 0 ∧ Int.fract (py / 32) = 0 then ⌊py / 32⌋ - 1 else ⌊py / 32⌋,
       if pz < 0 ∧ Int.fract (pz / 32) = 0 then ⌊pz / 32⌋ - 1 else ⌊pz / 32⌋⟩ := by
  have h32 : ((CHUNK_SIZE : Nat) : Rat) = 32 := by norm_num [CHUNK_SIZE]
  simp only [EntityPos.chunk, h32, ChunkPos.mk.injEq]
  exact ⟨entity_chunk_coord_eq px, entity_chunk_coord_eq py, entity_chunk_coord_eq pz⟩

/-- Chunk entity as seen by the generator worker
(src/src/world/generator.rs): the immutable position plus the contents of
the `blocks` cell — the block array (indexed by `LocalBlockPos::to_index`)
and `solid_blocks_count`. -/
structure Chunk where
  pos : ChunkPos
  data : Nat → BlockId
  solid_blocks_count : Nat

/-- One column of `Generator::generate` (the inner `while` of
src/src/world/generator.rs lines 125-132): starting at height `y`, write
`Block` while below the height-map value `h`, counting the solids. -/
def generate_column (chunk_floor : Int) (h : Nat) (x z y : Nat)
    (blocks : Nat → BlockId) (solid : Nat) : (Nat → BlockId) × Nat :=
  if hy : y < CHUNK_SIZE ∧ chunk_floor + (y : Int) < (h : Int) then
    generate_column chunk_floor h x z (y + 1)
      (fun i => if i = LocalBlockPos.to_index ⟨x, y, z⟩ then BlockId.Block else blocks i)
      (solid + 1)
  else (blocks, solid)
termination_by CHUNK_SIZE - y

/-- The `for z` loop of `Generator::generate`. -/
def generate_z (chunk_floor : Int) (map : Nat → Nat) (x z : Nat)
    (blocks : Nat → BlockId) (solid : Nat) : (Nat → BlockId) × Nat :=
  if z < CHUNK_SIZE then
    let r := generate_column chunk_floor (map (x * CHUNK_SIZE + z)) x z 0 blocks solid
    generate_z chunk_floor map x (z + 1) r.1 r.2
  else (blocks, solid)
termination_by CHUNK_SIZE - z

/-- The `for x` loop of `Generator::generate`. -/
def generate_x (chunk_floor : Int) (map : Nat → Nat) (x : Nat)
    (blocks : Nat → BlockId) (solid : Nat) : (Nat → BlockId) × Nat :=
  if x < CHUNK_SIZE then
    let r := generate_z chunk_floor map x 0 blocks solid
    generate_x chunk_floor map (x + 1) r.1 r.2
  else (blocks, solid)
termination_by CHUNK_SIZE - x

/-- `Generator::generate` from src/src/world/generator.rs lines 116-137.
`map` stands for the height map fetched from the cache (its construction
samples floating-point Perlin noise and is external to this model); the
function returns the updated block array and the solid block count. -/
def generate (pos : ChunkPos) (map : Nat → Nat) (blocks : Nat → BlockId) :
    (Nat → BlockId) × Nat :=
  generate_x (pos.y * (CHUNK_SIZE : Int)) map 0 blocks 0

/-- One iteration of the generator worker loop body
(src/src/world/generator.rs lines 74-93).  `upgraded` is the result of
upgrading the received weak reference.  On a live chunk the worker
generates into the blocks cell, stores the solid count, and — unless that
count is 0 — calls `Chunks::chunk_generated`
(src/src/world/chunks.rs lines 110-115), which sends the chunk on the
meshing channel.  The model returns the updated chunk (if any) and whether
`chunk_generated` was invoked. -/
def generator_iteration (map : Nat → Nat) (upgraded : Option Chunk) :
    Option Chunk × Bool :=
  match upgraded with
  | none => (none, false)
  | some chunk =>
      let r := generate chunk.pos map chunk.data
      let chunk' : Chunk := { chunk with data := r.1, solid_blocks_count := r.2 }
      if r.2 = 0 then (some chunk', false)
      else (some chunk', true)

/-- C6: in every generator worker iteration, the chunk is enqueued to the
mesher (`chunk_generated` invoked) if and only if the weak reference
upgraded to a live chunk and the generation's solid block count is
nonzero; in particular a chunk with solid count 0 is never forwarded. -/
theorem generator_forwards_iff (map : Nat → Nat) (upgraded : Option Chunk) :
    (generator_iteration map upgraded).2 = true ↔
      ∃ chunk, upgraded = some chunk ∧ (generate chunk.pos map chunk.data).2 ≠ 0 := by
  cases upgraded with
  | none => simp [generator_iteration]
  | some chunk =>
      simp only [generator_iteration]
      split
      · simp_all
      · simp_all

/-- `WaitingForDeleteBuffers` from src/src/world/chunks.rs lines 130-134:
`MAX_FRAMES_IN_FLIGHT` buckets of buffers waiting to be destroyed, plus the
current slot index.  `β` abstracts the GPU `Buffer` handle. -/
structure WaitingForDeleteBuffers (β : Type) where
  buffers : Fin MAX_FRAMES_IN_FLIGHT → List β
  index : Fin MAX_FRAMES_IN_FLIGHT

/-- `WaitingForDeleteBuffers::tick` from src/src/world/chunks.rs lines
136-143: clear the current slot (dropping — i.e. destroying — the buffers
it held), store this tick's evicted buffers there, and advance the index
modulo MAX_FRAMES_IN_FLIGHT.  Returns the new state and the list of
buffers destroyed by this call. -/
def WaitingForDeleteBuffers.tick {β : Type} (s : WaitingForDeleteBuffers β)
    (new_buffs : List β) : WaitingForDeleteBuffers β × List β :=
  let dropped := s.buffers s.index
  (⟨fun i => if i = s.index then new_buffs else s.buffers i,
    ⟨(s.index.val + 1) % MAX_FRAMES_IN_FLIGHT, Nat.mod_lt _ (by decide)⟩⟩, dropped)

/-- C7: a vertex buffer handed to the deferred-destruction ring by an
eviction tick is not destroyed by that tick nor by the next
MAX_FRAMES_IN_FLIGHT - 1 = 1 ticks; it is destroyed exactly at the
MAX_FRAMES_IN_FLIGHT-th (= 2nd) subsequent call to `tick` (provided, as in
the program, the same buffer handle is not simultaneously pending in
another slot or re-submitted). -/
theorem evicted_buffer_survives_max_frames {β : Type}
    (s : WaitingForDeleteBuffers β) (n0 n1 n2 : List β) (b : β)
    (hb : b ∈ n0)
    (hfresh0 : ∀ i, b ∉ s.buffers i) :
    b ∉ (s.tick n0).2 ∧
    b ∉ ((s.tick n0).1.tick n1).2 ∧
    b ∈ (((s.tick n0).1.tick n1).1.tick n2).2 := by
  obtain ⟨buf, idx⟩ := s
  fin_cases idx <;>
    refine ⟨hfresh0 _, ?_, ?_⟩ <;>
    simp_all [WaitingForDeleteBuffers.tick, Fin.ext_iff,
      show 2 % MAX_FRAMES_IN_FLIGHT = 0 from rfl,
      show 1 % MAX_FRAMES_IN_FLIGHT = 1 from rfl,
      show ¬ (MAX_FRAMES_IN_FLIGHT = 1) from by decide,
      show 3 % MAX_FRAMES_IN_FLIGHT = 1 from rfl]

/-- Witness for C7 at a concrete input: a single buffer (modelled as the
number 7) evicted into an empty ring survives the eviction tick and one
more tick, and is destroyed by the second subsequent tick. -/
theorem evicted_buffer_survives_max_frames_witness :
    7 ∉ (WaitingForDeleteBuffers.tick ⟨fun _ => ([] : List Nat), ⟨0, by decide⟩⟩ [7]).2 ∧
    7 ∉ ((WaitingForDeleteBuffers.tick ⟨fun _ => ([] : List Nat), ⟨0, by decide⟩⟩ [7]).1.tick []).2 ∧
    7 ∈ (((WaitingForDeleteBuffers.tick ⟨fun _ => ([] : List Nat), ⟨0, by decide⟩⟩ [7]).1.tick
      []).1.tick []).2 :=
  evicted_buffer_survives_max_frames ⟨fun _ => [], ⟨0, by decide⟩⟩ [7] [] [] 7 (by decide)
    (fun i => by simp)

namespace allocator

/-- `MIN_CHUNK_SIZE` from src/src/render/memory/allocator.rs line 18. -/
def MIN_CHUNK_SIZE : Nat := 1024 * 1024 * 32

/-- `Block` from src/src/render/memory/allocator.rs lines 278-283. -/
structure Block where
  offset : Nat
  size : Nat
  is_free : Bool
deriving DecidableEq

/-- `Block::aligned_size` from allocator.rs lines 285-290:
`self.size.saturating_sub(self.offset % alignment)` (Nat subtraction is
saturating). -/
def Block.aligned_size (b : Block) (alignment : Nat) : Nat :=
  b.size - b.offset % alignment

/-- The allocator `Chunk` from allocator.rs lines 145-154: one device-memory
region with its block list (sorted by offset) and `used` counter.  The
device memory handle is external; `mapped_ptr` is modelled by the Boolean
`mapped` (null versus the base pointer returned by `map_memory`). -/
structure Chunk where
  id : Nat
  size : Nat
  used : Nat
  blocks : List Block
  mapped : Bool
deriving DecidableEq

/-- `Allocation` from allocator.rs lines 292-300.  `ptr` is `none` for a
null pointer and `some off` for `mapped_ptr.add(off)`; the memory handle
and memory-type index are external and omitted. -/
structure Allocation where
  chunk_id : Nat
  size : Nat
  offset : Nat
  ptr : Option Nat
deriving DecidableEq

/-- `Allocation::data` from allocator.rs lines 319-326: `Some` exactly when
the pointer is non-null. -/
def Allocation.data (a : Allocation) : Option Nat :=
  a.ptr

/-- `Chunk::new` from allocator.rs lines 159-194: a fresh chunk holds one
free block covering `[0, size)`; `used = 0`. -/
def Chunk.new (id size : Nat) (mapped : Bool) : Chunk :=
  { id := id, size := size, used := 0, blocks := [⟨0, size, true⟩], mapped := mapped }

/-- The `for` loop of `Chunk::try_alloc` (allocator.rs lines 198-262).
On the first free block whose `aligned_size` is at least `size`, the code
replaces it by up to three blocks — the optional head (`prev_block`), the
allocated `new_block`, the optional tail (`next_block`), in this order via
`*block = ...` plus `splice`/`insert` at `i+1` — and builds the
`Allocation`.  Returns the allocation and the updated block list. -/
def try_alloc_go (chunk_id : Nat) (mapped : Bool) (size alignment : Nat) :
    List Block → Option (Allocation × List Block)
  | [] => none
  | block :: rest =>
    if block.is_free ∧ block.aligned_size alignment ≥ size then
      let aligned_size := block.aligned_size alignment
      let prev_block : Option Block :=
        if aligned_size ≠ block.size then
          some ⟨block.offset, block.size - aligned_size, true⟩
        else
          none
      let new_block : Block := ⟨block.offset + (block.size - aligned_size), size, false⟩
      let next_block_size :=
        block.size - ((prev_block.map (fun b => b.size)).getD 0 + new_block.size)
      let next_block : Option Block :=
        if next_block_size > 0 then
          some ⟨new_block.offset + new_block.size, next_block_size, true⟩
        else
          none
      let blocks' : List Block :=
        match prev_block with
        | some p => p :: new_block :: next_block.toList ++ rest
        | none => new_block :: next_block.toList ++ rest
      let ptr : Option Nat := if mapped then some new_block.offset else none
      some (⟨chunk_id, size, new_block.offset, ptr⟩, blocks')
    else
      (try_alloc_go chunk_id mapped size alignment rest).map
        (fun r => (r.1, block :: r.2))

/-- `Chunk::try_alloc` (allocator.rs lines 196-264): first-fit over the
block list under the chunk's mutex; on success `used += alloc.size`. -/
def Chunk.try_alloc (c : Chunk) (size alignment : Nat) :
    Option (Allocation × Chunk) :=
  (try_alloc_go c.id c.mapped size alignment c.blocks).map
    (fun r => (r.1, { c with blocks := r.2, used := c.used + r.1.size }))

/-- The in-place update of `Chunk::free` (allocator.rs lines 266-275): the
`binary_search_by` over the offset-sorted block list locates the unique
block with the allocation's offset; that block is marked free. -/
def free_mark (off : Nat) : List Block → List Block
  | [] => []
  | b :: rest =>
    if b.offset = off then { b with is_free := true } :: rest
    else b :: free_mark off rest

/-- `Chunk::free` (allocator.rs lines 266-275): mark the allocation's block
free (no merging) and `used -= alloc.size`. -/
def Chunk.free (c : Chunk) (a : Allocation) : Chunk :=
  { c with blocks := free_mark a.offset c.blocks, used := c.used - a.size }

/-- `Pool` from allocator.rs lines 75-80. -/
structure Pool where
  memory_type_index : Nat
  chunks_id_counter : Nat
  chunks : List Chunk
deriving DecidableEq

/-- The scan loop of `Pool::alloc` (allocator.rs lines 92-100): try each
chunk whose mapped flag matches the request (`mapped_ptr.is_null() !=
mapped`) and whose `size - used` leaves room. -/
def alloc_scan (size alignment : Nat) (mapped : Bool) :
    List Chunk → Option (Allocation × List Chunk)
  | [] => none
  | c :: rest =>
    if (!c.mapped) ≠ mapped ∧ c.size - c.used ≥ size then
      match c.try_alloc size alignment with
      | some (a, c') => some (a, c' :: rest)
      | none =>
          (alloc_scan size alignment mapped rest).map (fun r => (r.1, c :: r.2))
    else
      (alloc_scan size alignment mapped rest).map (fun r => (r.1, c :: r.2))

/-- `Pool::alloc` (allocator.rs lines 91-134), with the device allocation
succeeding at `max(MIN_CHUNK_SIZE, size)` (the OOM fallback path depends on
the external device and is not modelled): scan the existing chunks, else
append a new chunk with the next id and first-fit from it (which the source
asserts cannot fail). -/
def Pool.alloc (p : Pool) (size alignment : Nat) (mapped : Bool) :
    Option (Allocation × Pool) :=
  match alloc_scan size alignment mapped p.chunks with
  | some (a, cs) => some (a, { p with chunks := cs })
  | none =>
      let chunk_size := max MIN_CHUNK_SIZE size
      let new_chunk := { Chunk.new 0 chunk_size mapped with id := p.chunks_id_counter }
      match new_chunk.try_alloc size alignment with
      | some (a, c') =>
          some (a, { p with chunks := p.chunks ++ [c'],
                            chunks_id_counter := p.chunks_id_counter + 1 })
      | none => none

/-- C1 (failing execution): from an empty pool, `alloc(size=10, align=1,
mapped=false)` followed by `alloc(size=16, align=256, mapped=false)`
returns an allocation at offset 20 — `Block::aligned_size` pads by
`offset % alignment = 10` instead of up to the next 256-boundary — so the
returned offset is not a multiple of the requested alignment 256 (and this
allocator version never consults `non_coherent_atom_size` at all). -/
theorem pool_alloc_unaligned_offset :
    (((Pool.mk 0 0 []).alloc 10 1 false).bind
        (fun r => r.2.alloc 16 256 false)).map (fun r => r.1.offset) = some 20 ∧
    ¬ (256 ∣ 20) := by
  constructor
  · rfl
  · decide

/-- Partition check for a block list: the blocks tile `[off, stop)`
consecutively — each block starts where the previous one ended (hence the
list is sorted by offset) and the last one ends at `stop`. -/
def blocks_tile (off stop : Nat) : List Block → Bool
  | [] => off == stop
  | b :: rest => (b.offset == off) && blocks_tile (off + b.size) stop rest

/-- Sum of the sizes of the non-free (allocated) blocks. -/
def used_sum : List Block → Nat
  | [] => 0
  | b :: rest => (if b.is_free then 0 else b.size) + used_sum rest

/-- The C9 invariant of an allocator chunk: its block list partitions
`[0, size)` (offset 0 first, consecutive offsets, sizes summing to `size`)
and `used` equals the total size of the non-free blocks. -/
def Chunk.inv (c : Chunk) : Bool :=
  blocks_tile 0 c.size c.blocks && (c.used == used_sum c.blocks)

theorem try_alloc_go_preserves (cid : Nat) (mapped : Bool) (size alignment : Nat) :
    ∀ (bs : List Block) (off stop : Nat) (a : Allocation) (bs' : List Block),
      blocks_tile off stop bs = true →
      try_alloc_go cid mapped size alignment bs = some (a, bs') →
      blocks_tile off stop bs' = true ∧ used_sum bs' = used_sum bs + size ∧
        a.size = size := by
  intro bs
  induction bs with
  | nil =>
      intro off stop a bs' _ h
      simp [try_alloc_go] at h
  | cons b rest ih =>
      intro off stop a bs' ht h
      simp only [blocks_tile, Bool.and_eq_true, beq_iff_eq] at ht
      obtain ⟨hoff, htr⟩ := ht
      rw [try_alloc_go] at h
      split at h
      · rename_i hg
        obtain ⟨hfree, hge⟩ := hg
        simp only [Option.some.injEq, Prod.mk.injEq] at h
        obtain ⟨ha, hbs⟩ := h
        subst hbs
        refine ⟨?_, ?_, by rw [← ha]⟩
        · clear ha
          simp only [Block.aligned_size] at *
          set R := b.offset % alignment with hR
          by_cases hprev : b.size - R ≠ b.size
          · rw [if_pos hprev]
            simp only [Option.map_some', Option.getD_some]
            by_cases hnx : b.size - (b.size - (b.size - R) + size) > 0
            · rw [if_pos hnx]
              simp only [Option.toList_some, List.singleton_append, blocks_tile,
                Bool.and_eq_true, beq_iff_eq]
              refine ⟨by omega, by omega, by omega, ?_⟩
              convert htr using 2
              omega
            · rw [if_neg hnx]
              simp only [Option.toList_none, List.nil_append, blocks_tile,
                Bool.and_eq_true, beq_iff_eq]
              refine ⟨by omega, by omega, ?_⟩
              convert htr using 2
              omega
          · rw [if_neg hprev]
            simp only [Option.map_none', Option.getD_none]
            by_cases hnx : b.size - (0 + size) > 0
            · rw [if_pos hnx]
              simp only [Option.toList_some, List.singleton_append, blocks_tile,
                Bool.and_eq_true, beq_iff_eq]
              refine ⟨by omega, by omega, ?_⟩
              convert htr using 2
              omega
            · rw [if_neg hnx]
              simp only [Option.toList_none, List.nil_append, blocks_tile,
                Bool.and_eq_true, beq_iff_eq]
              refine ⟨by omega, ?_⟩
              convert htr using 2
              omega
        · clear ha
          simp only [Block.aligned_size] at *
          set R := b.offset % alignment with hR
          by_cases hprev : b.size - R ≠ b.size
          · rw [if_pos hprev]
            simp only [Option.map_some', Option.getD_some]
            by_cases hnx : b.size - (b.size - (b.size - R) + size) > 0
            · rw [if_pos hnx]
              simp [Option.toList_some, List.singleton_append, used_sum, hfree] <;>
                omega
            · rw [if_neg hnx]
              simp [Option.toList_none, List.nil_append, used_sum, hfree] <;>
                omega
          · rw [if_neg hprev]
            simp only [Option.map_none', Option.getD_none]
            by_cases hnx : b.size - (0 + size) > 0
            · rw [if_pos hnx]
              simp [Option.toList_some, List.singleton_append, used_sum, hfree] <;>
                omega
            · rw [if_neg hnx]
              simp [Option.toList_none, List.nil_append, used_sum, hfree] <;>
                omega
      · rw [Option.map_eq_some'] at h
        obtain ⟨r, hr, hra⟩ := h
        obtain ⟨h1, h2, h3⟩ := ih (off + b.size) stop r.1 r.2 htr hr
        injection hra with h4 h5
        subst h4
        subst h5
        refine ⟨?_, ?_, h3⟩
        · simp only [blocks_tile, Bool.and_eq_true, beq_iff_eq]
          exact ⟨hoff, h1⟩
        · simp only [used_sum]
          omega

theorem free_mark_tile (off0 : Nat) :
    ∀ (bs : List Block) (off stop : Nat),
      blocks_tile off stop bs = true →
      blocks_tile off stop (free_mark off0 bs) = true := by
  intro bs
  induction bs with
  | nil => intro off stop h; rw [free_mark]; exact h
  | cons b rest ih =>
      intro off stop h
      simp only [blocks_tile, Bool.and_eq_true, beq_iff_eq] at h
      obtain ⟨h1, h2⟩ := h
      rw [free_mark]
      split
      · simp only [blocks_tile, Bool.and_eq_true, beq_iff_eq]
        exact ⟨h1, h2⟩
      · simp only [blocks_tile, Bool.and_eq_true, beq_iff_eq]
        exact ⟨h1, ih _ _ h2⟩

theorem find_nonfree_le_used_sum (off0 : Nat) :
    ∀ (bs : List Block) (blk : Block),
      bs.find? (fun b => b.offset == off0) = some blk →
      blk.is_free = false →
      blk.size ≤ used_sum bs := by
  intro bs
  induction bs with
  | nil => intro blk h _; simp [List.find?] at h
  | cons b rest ih =>
      intro blk h hnf
      rw [List.find?] at h
      split at h
      · simp only [Option.some.injEq] at h
        subst h
        simp [used_sum, hnf]
      · have := ih blk h hnf
        simp only [used_sum]
        omega

theorem free_mark_used_sum (off0 : Nat) :
    ∀ (bs : List Block) (blk : Block),
      bs.find? (fun b => b.offset == off0) = some blk →
      blk.is_free = false →
      used_sum (free_mark off0 bs) = used_sum bs - blk.size := by
  intro bs
  induction bs with
  | nil => intro blk h _; simp [List.find?] at h
  | cons b rest ih =>
      intro blk h hnf
      rw [List.find?] at h
      rw [free_mark]
      split at h
      · rename_i hcond
        simp only [beq_iff_eq] at hcond
        simp only [Option.some.injEq] at h
        subst h
        rw [if_pos hcond]
        simp [used_sum, hnf]
      · rename_i hcond
        have hcond' : ¬ b.offset = off0 := by simpa using hcond
        rw [if_neg hcond']
        have hle := find_nonfree_le_used_sum off0 rest blk h hnf
        have := ih blk h hnf
        simp only [used_sum]
        omega

/-- C9: the block list of an allocator chunk is always a partition of
`[0, chunk.size)` (sorted by offset, first offset 0, consecutive offsets,
sizes summing to `chunk.size`) with `used` equal to the sum of the
non-free block sizes: `Chunk::new` establishes the invariant, and both
`Chunk::try_alloc` (which splits a free block into up to three) and
`Chunk::free` (which only marks the allocation's block — located by its
offset, with the source's `debug_assert`s that it is allocated and has the
allocation's size — as free) preserve it. -/
theorem chunk_block_list_invariant :
    (∀ (id size : Nat) (mapped : Bool), (Chunk.new id size mapped).inv = true) ∧
    (∀ (c : Chunk) (size alignment : Nat) (a : Allocation) (c' : Chunk),
      c.inv = true → c.try_alloc size alignment = some (a, c') →
      c'.inv = true) ∧
    (∀ (c : Chunk) (a : Allocation) (blk : Block),
      c.inv = true →
      c.blocks.find? (fun b => b.offset == a.offset) = some blk →
      blk.is_free = false → blk.size = a.size →
      (c.free a).inv = true) := by
  refine ⟨?_, ?_, ?_⟩
  · intro id size mapped
    simp [Chunk.new, Chunk.inv, blocks_tile, used_sum]
  · intro c size alignment a c' hinv halloc
    rw [Chunk.inv, Bool.and_eq_true, beq_iff_eq] at hinv
    obtain ⟨htile, hused⟩ := hinv
    rw [Chunk.try_alloc, Option.map_eq_some'] at halloc
    obtain ⟨r, hr, hra⟩ := halloc
    injection hra with h4 h5
    obtain ⟨t1, t2, t3⟩ := try_alloc_go_preserves c.id c.mapped size alignment
      c.blocks 0 c.size r.1 r.2 htile hr
    subst h5
    rw [Chunk.inv, Bool.and_eq_true, beq_iff_eq]
    refine ⟨t1, ?_⟩
    simp only []
    omega
  · intro c a blk hinv hfind hnf hsz
    rw [Chunk.inv, Bool.and_eq_true, beq_iff_eq] at hinv
    obtain ⟨htile, hused⟩ := hinv
    rw [Chunk.inv, Bool.and_eq_true, beq_iff_eq]
    constructor
    · exact free_mark_tile a.offset c.blocks 0 c.size htile
    · have h1 := free_mark_used_sum a.offset c.blocks blk hfind hnf
      simp only [Chunk.free] at h1 ⊢
      omega

/-- Witness for C9 at a concrete chunk: allocating 10 bytes from a fresh
64-byte chunk yields the two-block partition `[0,10) used, [10,64) free`
with `used = 10`, which satisfies the invariant. -/
theorem chunk_block_list_invariant_witness :
    (Chunk.mk 0 64 10 [⟨0, 10, false⟩, ⟨10, 54, true⟩] false).inv = true :=
  chunk_block_list_invariant.2.1 (Chunk.new 0 64 false) 10 1 ⟨0, 10, 0, none⟩
    (Chunk.mk 0 64 10 [⟨0, 10, false⟩, ⟨10, 54, true⟩] false) (by decide) (by decide)

end allocator

/-- Modelled from the spec and its use sites: `LocalBlockPos::add` (used by
src/src/world/chunk.rs, not present in the src/ copy of pos.rs):
component-wise addition of an i8 offset, `None` when any coordinate leaves
`[0, CHUNK_SIZE)`. -/
def LocalBlockPos.add (p : LocalBlockPos) (dx dy dz : Int) : Option LocalBlockPos :=
  let x := (p.x : Int) + dx
  let y := (p.y : Int) + dy
  let z := (p.z : Int) + dz
  if 0 ≤ x ∧ x < CHUNK_SIZE ∧ 0 ≤ y ∧ y < CHUNK_SIZE ∧ 0 ≤ z ∧ z < CHUNK_SIZE then
    some ⟨x.toNat, y.toNat, z.toNat⟩
  else
    none

namespace naive

/-- `meshing_consts::ADDENDS` from src/src/world/chunk.rs. -/
def ADDENDS : Fin 6 → Int × Int × Int
  | 0 => (-1, 0, 0)
  | 1 => (1, 0, 0)
  | 2 => (0, 0, -1)
  | 3 => (0, 0, 1)
  | 4 => (0, 1, 0)
  | 5 => (0, -1, 0)

/-- `meshing_consts::LIGHT_MODIFIERS` from src/src/world/chunk.rs. -/
def LIGHT_MODIFIERS : Fin 6 → Nat
  | 0 => 1
  | 1 => 1
  | 2 => 2
  | 3 => 2
  | 4 => 3
  | 5 => 0

/-- `meshing_consts::FACES` from src/src/world/chunk.rs: the six corner
offsets of each face, in emission order `[FRONT, BACK, LEFT, RIGHT, UP,
DOWN]`. -/
def FACES : Fin 6 → List (Nat × Nat × Nat)
  | 0 => [(0, 0, 0), (0, 1, 0), (0, 0, 1), (0, 1, 0), (0, 1, 1), (0, 0, 1)]
  | 1 => [(1, 0, 0), (1, 0, 1), (1, 1, 0), (1, 1, 0), (1, 0, 1), (1, 1, 1)]
  | 2 => [(1, 0, 0), (1, 1, 0), (0, 0, 0), (1, 1, 0), (0, 1, 0), (0, 0, 0)]
  | 3 => [(0, 0, 1), (0, 1, 1), (1, 0, 1), (0, 1, 1), (1, 1, 1), (1, 0, 1)]
  | 4 => [(0, 1, 0), (1, 1, 0), (0, 1, 1), (1, 1, 0), (1, 1, 1), (0, 1, 1)]
  | 5 => [(1, 0, 0), (0, 0, 0), (1, 0, 1), (0, 0, 0), (0, 0, 1), (1, 0, 1)]

/-- The `block_exists` closure of the per-face mesher
(src/src/world/chunk.rs lines 140-167).  `neighbours dir` is `none` when
the neighbouring chunk is absent from the world map, `some none` when it
is present but its blocks cell still holds `None` (not yet generated), and
`some (some bs)` when generated.  The code reads an absent neighbour as
empty (`false`) and an ungenerated one as solid (`true`).
`neighbour_probe_pos` is the `match dir` computing the neighbour-local
position (chunk.rs lines 150-158). -/
def neighbour_probe_pos (block_pos : LocalBlockPos) : Fin 6 → LocalBlockPos
  | 0 => ⟨CHUNK_SIZE - 1, block_pos.y, block_pos.z⟩
  | 1 => ⟨0, block_pos.y, block_pos.z⟩
  | 2 => ⟨block_pos.x, block_pos.y, CHUNK_SIZE - 1⟩
  | 3 => ⟨block_pos.x, block_pos.y, 0⟩
  | 4 => ⟨block_pos.x, 0, block_pos.z⟩
  | 5 => ⟨block_pos.x, CHUNK_SIZE - 1, block_pos.z⟩

def block_exists (blocks : Nat → BlockId)
    (neighbours : Fin 6 → Option (Option (Nat → BlockId)))
    (block_pos : LocalBlockPos) (dir : Fin 6) : Bool :=
  let addend := ADDENDS dir
  match block_pos.add addend.1 addend.2.1 addend.2.2 with
  | some pos => blocks pos.to_index != BlockId.Air
  | none =>
    match neighbours dir with
    | some (some nblocks) =>
        nblocks (neighbour_probe_pos block_pos dir).to_index != BlockId.Air
    | some none => true
    | none => false

/-- `emit_face` from src/src/world/chunk.rs lines 127-138: six corner
vertices, packed exactly like `build_vert` (the values are too small for
u32 wrap-around). -/
def emit_face (pos : LocalBlockPos) (face_idx : Fin 6) : List Vertex :=
  (FACES face_idx).map (fun c =>
    ⟨(pos.x + c.1) ||| ((pos.y + c.2.1) <<< 6) ||| ((pos.z + c.2.2) <<< 12) |||
      (LIGHT_MODIFIERS face_idx <<< 18)⟩)

/-- The per-face `mesh` from src/src/world/chunk.rs lines 118-182: for each
block (in index order), if it is solid, emit a face for every direction
whose `block_exists` probe fails.  The caller-supplied buffer is modelled
by the returned list (each `emit_face` writes 6 entries at the running
index). -/
def mesh (blocks : Nat → BlockId)
    (neighbours : Fin 6 → Option (Option (Nat → BlockId))) : List Vertex :=
  (List.range BLOCKS_PER_CHUNK).flatMap (fun i =>
    if blocks i ≠ BlockId.Air then
      (List.finRange 6).flatMap (fun dir =>
        if ¬ block_exists blocks neighbours (LocalBlockPos.from_index i) dir then
          emit_face (LocalBlockPos.from_index i) dir
        else [])
    else [])

theorem FACES_length (d : Fin 6) : (FACES d).length = 6 := by
  fin_cases d <;> rfl

theorem block_exists_congr (blocks : Nat → BlockId)
    (n1 n2 : Fin 6 → Option (Option (Nat → BlockId)))
    (p : LocalBlockPos) (dir : Fin 6) (h : n1 dir = n2 dir) :
    block_exists blocks n1 p dir = block_exists blocks n2 p dir := by
  simp only [block_exists, h]

/-- C10: in the per-face mesher, a neighbour present in the world map but
not yet generated (`some none`) is read as entirely solid, so no boundary
face toward it is emitted, while a neighbour absent from the map (`none`)
is read as empty and yields boundary faces; consequently, for the same
blocks array with at least one solid block on that boundary, the two
neighbour configurations produce different vertex outputs (strictly more
vertices with the missing neighbour). -/
theorem ungenerated_neighbour_reads_solid :
    (∀ (blocks : Nat → BlockId) (neighbours : Fin 6 → Option (Option (Nat → BlockId)))
       (p : LocalBlockPos) (dir : Fin 6),
        p.add (ADDENDS dir).1 (ADDENDS dir).2.1 (ADDENDS dir).2.2 = none →
        (neighbours dir = some none → block_exists blocks neighbours p dir = true) ∧
        (neighbours dir = none → block_exists blocks neighbours p dir = false)) ∧
    (∀ (blocks : Nat → BlockId) (n1 n2 : Fin 6 → Option (Option (Nat → BlockId)))
       (D : Fin 6) (i0 : Nat),
        n1 D = some none → n2 D = none → (∀ d, d ≠ D → n1 d = n2 d) →
        i0 < BLOCKS_PER_CHUNK → blocks i0 ≠ BlockId.Air →
        (LocalBlockPos.from_index i0).add (ADDENDS D).1 (ADDENDS D).2.1
          (ADDENDS D).2.2 = none →
        (mesh blocks n1).length < (mesh blocks n2).length) := by
  constructor
  · intro blocks neighbours p dir hb
    constructor
    · intro hn
      simp only [block_exists, hb, hn]
    · intro hn
      simp only [block_exists, hb, hn]
  · intro blocks n1 n2 D i0 h1 h2 hagree hi0 hsolid hbound
    rw [mesh, mesh, List.length_flatMap, List.length_flatMap]
    simp only [Function.comp_def]
    apply List.sum_lt_sum
    · intro i _
      by_cases hs : blocks i ≠ BlockId.Air
      · simp only [if_pos hs]
        rw [List.length_flatMap, List.length_flatMap]
        simp only [Function.comp_def]
        apply List.sum_le_sum
        intro dir _
        by_cases hd : dir = D
        · subst hd
          by_cases hbd : (LocalBlockPos.from_index i).add (ADDENDS dir).1
              (ADDENDS dir).2.1 (ADDENDS dir).2.2 = none
          · have he1 : block_exists blocks n1 (LocalBlockPos.from_index i) dir
                = true := by simp only [block_exists, hbd, h1]
            simp only [he1]
            simp
          · have he : block_exists blocks n1 (LocalBlockPos.from_index i) dir
                = block_exists blocks n2 (LocalBlockPos.from_index i) dir := by
              rcases ho : (LocalBlockPos.from_index i).add (ADDENDS dir).1
                  (ADDENDS dir).2.1 (ADDENDS dir).2.2 with _ | pos
              · exact absurd ho hbd
              · simp only [block_exists, ho]
            rw [he]
        · have he := block_exists_congr blocks n1 n2 (LocalBlockPos.from_index i)
            dir (hagree dir hd)
          rw [he]
      · simp only [if_neg hs]
        exact le_refl _
    · refine ⟨i0, List.mem_range.mpr hi0, ?_⟩
      simp only [if_pos hsolid]
      rw [List.length_flatMap, List.length_flatMap]
      simp only [Function.comp_def]
      apply List.sum_lt_sum
      · intro dir _
        by_cases hd : dir = D
        · subst hd
          have he1 : block_exists blocks n1 (LocalBlockPos.from_index i0) dir
              = true := by simp only [block_exists, hbound, h1]
          simp only [he1]
          simp
        · have he := block_exists_congr blocks n1 n2 (LocalBlockPos.from_index i0)
            dir (hagree dir hd)
          rw [he]
      · refine ⟨D, by simp [List.mem_finRange], ?_⟩
        have he1 : block_exists blocks n1 (LocalBlockPos.from_index i0) D
            = true := by simp only [block_exists, hbound, h1]
        have he2 : block_exists blocks n2 (LocalBlockPos.from_index i0) D
            = false := by simp only [block_exists, hbound, h2]
        rw [he1, he2]
        simp [emit_face, List.length_map, FACES_length]

/-- Witness for C10 at a concrete input: one solid block at the origin;
its -X neighbour present-but-ungenerated versus absent from the map. -/
theorem ungenerated_neighbour_reads_solid_witness :
    (naive.mesh (fun i => if i = 0 then BlockId.Block else BlockId.Air)
        (fun d => if d = 0 then some none else none)).length <
    (naive.mesh (fun i => if i = 0 then BlockId.Block else BlockId.Air)
        (fun _ => none)).length :=
  ungenerated_neighbour_reads_solid.2
    (fun i => if i = 0 then BlockId.Block else BlockId.Air)
    (fun d => if d = 0 then some none else none) (fun _ => none) 0 0
    (by rfl) (by rfl)
    (fun d hd => by
      show (if d = 0 then some none else none) = none
      rw [if_neg hd])
    (by decide) (by decide) (by decide)

end naive

/-- `LocalBlockPos::try_new` from src/src/world/pos.rs lines 31-41: `None`
when a coordinate is `>= CHUNK_SIZE` or fails the `i8 → u8` conversion
(i.e. is negative). -/
def LocalBlockPos.try_new (x y z : Int) : Option LocalBlockPos :=
  if x ≥ CHUNK_SIZE ∨ y ≥ CHUNK_SIZE ∨ z ≥ CHUNK_SIZE then none
  else if 0 ≤ x ∧ 0 ≤ y ∧ 0 ≤ z then some ⟨x.toNat, y.toNat, z.toNat⟩
  else none

namespace greedy

/-- `LIGHT_MODIFIERS` from src/src/world/chunk_mesh.rs line 18 (`[1, 1, 3,
0, 2, 2]`); indexed by `dir < 6` (the source array access panics
otherwise). -/
def LIGHT_MODIFIERS : Nat → Nat
  | 0 => 1
  | 1 => 1
  | 2 => 3
  | 3 => 0
  | 4 => 2
  | 5 => 2
  | _ => 0

/-- The out-of-range arm of `block_exist` (chunk_mesh.rs lines 33-72):
which neighbour (`+X, -X, +Y, -Y, +Z, -Z`) is probed, and at which local
position of that neighbour.  Hoisted out of `block_exist` for reasoning.
In every use the probed position has at most one out-of-range coordinate,
so the source's final `unreachable!()` arm is folded into the last
branch. -/
def oob_probe (block_pos pos : Int × Int × Int) : Fin 6 × LocalBlockPos :=
  if pos.1 ≥ CHUNK_SIZE then
    (0, ⟨0, block_pos.2.1.toNat, block_pos.2.2.toNat⟩)
  else if pos.1 < 0 then
    (1, ⟨CHUNK_SIZE - 1, block_pos.2.1.toNat, block_pos.2.2.toNat⟩)
  else if pos.2.1 ≥ CHUNK_SIZE then
    (2, ⟨block_pos.1.toNat, 0, block_pos.2.2.toNat⟩)
  else if pos.2.1 < 0 then
    (3, ⟨block_pos.1.toNat, CHUNK_SIZE - 1, block_pos.2.2.toNat⟩)
  else if pos.2.2 ≥ CHUNK_SIZE then
    (4, ⟨block_pos.1.toNat, block_pos.2.1.toNat, 0⟩)
  else
    (5, ⟨block_pos.1.toNat, block_pos.2.1.toNat, CHUNK_SIZE - 1⟩)

/-- The neighbour lookup of `block_exist` (chunk_mesh.rs lines 73-78):
absent neighbour reads as empty. -/
def probe_neighbour (neighbours : Fin 6 → Option (Nat → BlockId))
    (np : Fin 6 × LocalBlockPos) : Bool :=
  match neighbours np.1 with
  | some nblocks => nblocks np.2.to_index != BlockId.Air
  | none => false

/-- `block_exist` with the probed position `pos` already computed. -/
def block_exist_core (blocks : Nat → BlockId)
    (neighbours : Fin 6 → Option (Nat → BlockId))
    (block_pos pos : Int × Int × Int) : Bool :=
  match LocalBlockPos.try_new pos.1 pos.2.1 pos.2.2 with
  | some p => blocks p.to_index != BlockId.Air
  | none => probe_neighbour neighbours (oob_probe block_pos pos)

/-- `block_exist` from src/src/world/chunk_mesh.rs lines 20-79.  `blocks`
is the chunk's block array indexed by `LocalBlockPos::to_index`;
`neighbours dir` is the block array of the neighbouring chunk in direction
`dir` (`+X, -X, +Y, -Y, +Z, -Z`), `none` when absent. -/
def block_exist (blocks : Nat → BlockId) (neighbours : Fin 6 → Option (Nat → BlockId))
    (block_pos : Int × Int × Int) (addend : Int × Int × Int) : Bool :=
  block_exist_core blocks neighbours block_pos
    (block_pos.1 + addend.1, block_pos.2.1 + addend.2.1, block_pos.2.2 + addend.2.2)

/-- The coordinate triple `x` of `mesh` (chunk_mesh.rs lines 129-139) with
`x[d] = xd`, `x[u] = xu`, `x[v] = xv`, where `u = (d+1) % 3` and
`v = (d+2) % 3`. -/
def place (d : Fin 3) (xd xu xv : Int) : Int × Int × Int :=
  match d with
  | 0 => (xd, xu, xv)
  | 1 => (xv, xd, xu)
  | 2 => (xu, xv, xd)

/-- One mask entry (chunk_mesh.rs lines 146-153): 1 when the block at `x`
is solid and the one at `x + q` is empty (outward face), 2 for the
inverse, 0 otherwise. -/
def mask_entry (blocks : Nat → BlockId) (neighbours : Fin 6 → Option (Nat → BlockId))
    (d : Fin 3) (xd : Int) (xu xv : Nat) : Nat :=
  let block_current_exists :=
    block_exist blocks neighbours (place d xd xu xv) (0, 0, 0)
  let block_compare_exists :=
    block_exist blocks neighbours (place d xd xu xv) (place d 1 0 0)
  match block_current_exists, block_compare_exists with
  | true, true => 0
  | false, false => 0
  | true, false => 1
  | false, true => 2

/-- The mask array, modelled as a total function on indices. -/
def Mask : Type := Nat → Nat

/-- The inner (`x[u]`) loop of the mask-building pass (chunk_mesh.rs lines
143-157): write `mask[n]` and advance `n`. -/
def build_mask_u (blocks : Nat → BlockId) (neighbours : Fin 6 → Option (Nat → BlockId))
    (d : Fin 3) (xd : Int) (xv : Nat) (xu n : Nat) (m : Mask) : Mask × Nat :=
  if xu < CHUNK_SIZE then
    build_mask_u blocks neighbours d xd xv (xu + 1) (n + 1)
      (fun k => if k = n then mask_entry blocks neighbours d xd xu xv else m k)
  else (m, n)
termination_by CHUNK_SIZE - xu

/-- The outer (`x[v]`) loop of the mask-building pass (chunk_mesh.rs lines
141-158). -/
def build_mask_v (blocks : Nat → BlockId) (neighbours : Fin 6 → Option (Nat → BlockId))
    (d : Fin 3) (xd : Int) (xv n : Nat) (m : Mask) : Mask × Nat :=
  if xv < CHUNK_SIZE then
    build_mask_v blocks neighbours d xd (xv + 1)
      (build_mask_u blocks neighbours d xd xv 0 n m).2
      (build_mask_u blocks neighbours d xd xv 0 n m).1
  else (m, n)
termination_by CHUNK_SIZE - xv

/-- The whole mask build for one slab (`n` starts at 0, every entry below
`CHUNK_SIZE²` is overwritten). -/
def build_mask (blocks : Nat → BlockId) (neighbours : Fin 6 → Option (Nat → BlockId))
    (d : Fin 3) (xd : Int) (m : Mask) : Mask :=
  (build_mask_v blocks neighbours d xd 0 0 m).1

/-- The quad-width scan (chunk_mesh.rs lines 167-172): extend `w` while the
next mask entry in the row is nonzero and equals `last_mask`. -/
def compute_w (m : Mask) (n i w last : Nat) : Nat :=
  if i + w < CHUNK_SIZE ∧ m (n + w) ≠ 0 ∧ m (n + w) = last then
    compute_w m n i (w + 1) (m (n + w))
  else w
termination_by CHUNK_SIZE - (i + w)

/-- The inner `for k` check of the height scan (chunk_mesh.rs lines
177-183): `none` models the `break 'a`; otherwise returns the final
`last_mask`. -/
def check_row (m : Mask) (n h w k last : Nat) : Option Nat :=
  if k < w then
    if m (n + k + h * CHUNK_SIZE) = 0 ∨ m (n + k + h * CHUNK_SIZE) ≠ last then none
    else check_row m n h w (k + 1) (m (n + k + h * CHUNK_SIZE))
  else some last
termination_by w - k

/-- The quad-height scan (chunk_mesh.rs lines 174-186). -/
def compute_h (m : Mask) (n j w h last : Nat) : Nat :=
  if j + h < CHUNK_SIZE then
    match check_row m n h w 0 last with
    | some last' => compute_h m n j w (h + 1) last'
    | none => h
  else h
termination_by CHUNK_SIZE - (j + h)

/-- The inner zeroing loop (chunk_mesh.rs line 214-216). -/
def zero_rect_k (m : Mask) (n l w k : Nat) : Mask :=
  if k < w then
    zero_rect_k (fun t => if t = n + k + l * CHUNK_SIZE then 0 else m t) n l w (k + 1)
  else m
termination_by w - k

/-- The outer zeroing loop (chunk_mesh.rs lines 213-217). -/
def zero_rect_l (m : Mask) (n w h l : Nat) : Mask :=
  if l < h then
    zero_rect_l (zero_rect_k m n l w 0) n w h (l + 1)
  else m
termination_by h - l

/-- The loop state at one `append_quad` call of the greedy scan
(chunk_mesh.rs lines 188-211): `x[u] = i`, `x[v] = j`, the rectangle
extent `(w, h)` and the mask value `mask[n]` (which selects the face
direction `d*2 + mask[n] - 1`). -/
structure GreedyRect where
  i : Nat
  j : Nat
  w : Nat
  h : Nat
  val : Nat
deriving DecidableEq

theorem compute_w_ge_aux (m : Mask) (n i : Nat) :
    ∀ (fuel w last : Nat), CHUNK_SIZE - (i + w) = fuel →
      w ≤ compute_w m n i w last := by
  intro fuel
  induction fuel using Nat.strong_induction_on with
  | _ fuel ih =>
    intro w last hf
    rw [compute_w]
    split
    · rename_i hc
      refine le_trans (by omega) (ih (CHUNK_SIZE - (i + (w + 1))) (by omega) (w + 1)
        (m (n + w)) rfl)
    · exact le_refl w

theorem compute_w_ge (m : Mask) (n i : Nat) :
    ∀ (w last : Nat), w ≤ compute_w m n i w last :=
  fun w last => compute_w_ge_aux m n i (CHUNK_SIZE - (i + w)) w last rfl

/-- The `while i < CHUNK_SIZE` scan of one mask row (chunk_mesh.rs lines
164-225), collecting one `GreedyRect` per `append_quad` call and zeroing
each emitted rectangle.  `n` tracks `j * CHUNK_SIZE + i`. -/
def scan_row (m : Mask) (j i n : Nat) (acc : List GreedyRect) :
    Mask × List GreedyRect :=
  if i < CHUNK_SIZE then
    if m n ≠ 0 then
      let w := compute_w m n i 1 (m n)
      let h := compute_h m n j w 1 (m n)
      let r : GreedyRect := ⟨i, j, w, h, m n⟩
      let m' := zero_rect_l m n w h 0
      scan_row m' j (i + w) (n + w) (acc ++ [r])
    else scan_row m j (i + 1) (n + 1) acc
  else (m, acc)
termination_by CHUNK_SIZE - i
decreasing_by
  · have := compute_w_ge m n i 1 (m n)
    omega
  · omega

/-- The `for j` loop of the greedy scan (chunk_mesh.rs lines 163-226);
each row starts at `n = j * CHUNK_SIZE`. -/
def scan_rows (m : Mask) (j : Nat) (acc : List GreedyRect) :
    Mask × List GreedyRect :=
  if j < CHUNK_SIZE then
    let r := scan_row m j 0 (j * CHUNK_SIZE) acc
    scan_rows r.1 (j + 1) r.2
  else (m, acc)
termination_by CHUNK_SIZE - j

/-- One slab of the sweep (chunk_mesh.rs lines 140-227): build the mask at
`x[d] = xd`, then run the greedy scan. -/
def slab_pass (blocks : Nat → BlockId) (neighbours : Fin 6 → Option (Nat → BlockId))
    (d : Fin 3) (xd : Int) (m : Mask) : Mask × List GreedyRect :=
  scan_rows (build_mask blocks neighbours d xd m) 0 []

/-- The `while x[d] < CHUNK_SIZE` slab loop (chunk_mesh.rs lines 140-227),
from `x[d] = -1`; pairs each slab's rectangles with the incremented
`x[d] + 1` used when emitting (line 160). -/
def axis_slabs (blocks : Nat → BlockId) (neighbours : Fin 6 → Option (Nat → BlockId))
    (d : Fin 3) (xd : Int) (m : Mask) : List (Int × List GreedyRect) :=
  if h : xd < CHUNK_SIZE then
    let r := slab_pass blocks neighbours d xd m
    (xd + 1, r.2) :: axis_slabs blocks neighbours d (xd + 1) r.1
  else []
termination_by (CHUNK_SIZE - xd).toNat
decreasing_by
  simp only [CHUNK_SIZE] at *
  omega

/-- The four corner points passed to `append_quad` (chunk_mesh.rs lines
197-209): `x`, `x + du`, `x + dv`, `x + du + dv`, with `x[d]` already
incremented to `xd1`. -/
def quad_points (d : Fin 3) (xd1 : Int) (r : GreedyRect) :
    (Int × Int × Int) × (Int × Int × Int) × (Int × Int × Int) × (Int × Int × Int) :=
  (place d xd1 r.i r.j,
   place d xd1 (r.i + r.w) r.j,
   place d xd1 r.i (r.j + r.h),
   place d xd1 (r.i + r.w) (r.j + r.h))

/-- `append_quad` from src/src/world/chunk_mesh.rs lines 87-118: the four
corner points (nonnegative, per the source's `debug_assert`, hence the
`toNat` view of the `i8 → u8` transmute) are packed by `build_vert` with
the face's light modifier, and the two triangles are appended with the
winding selected by `dir % 2`. -/
def append_quad (buff : List Vertex) (p0 p1 p2 p3 : Int × Int × Int) (dir : Nat) :
    List Vertex :=
  let light_modifier := LIGHT_MODIFIERS dir
  let v0 := build_vert (p0.1.toNat, p0.2.1.toNat, p0.2.2.toNat) light_modifier
  let v1 := build_vert (p1.1.toNat, p1.2.1.toNat, p1.2.2.toNat) light_modifier
  let v2 := build_vert (p2.1.toNat, p2.2.1.toNat, p2.2.2.toNat) light_modifier
  let v3 := build_vert (p3.1.toNat, p3.2.1.toNat, p3.2.2.toNat) light_modifier
  if dir % 2 = 0 then
    buff ++ [v0, v2, v1, v1, v2, v3]
  else
    buff ++ [v0, v1, v2, v1, v3, v2]

/-- The sequence of `append_quad` invocations of `mesh` (chunk_mesh.rs
lines 120-231), in emission order: axes `d = 0, 1, 2`, slabs
`x[d] = -1 .. 31`, then row-major greedy scan order; each entry carries
the axis, the incremented `x[d] + 1` and the rectangle data. -/
def mesh_quads (blocks : Nat → BlockId)
    (neighbours : Fin 6 → Option (Nat → BlockId)) :
    List (Fin 3 × Int × GreedyRect) :=
  ([0, 1, 2] : List (Fin 3)).flatMap (fun d =>
    (axis_slabs blocks neighbours d (-1) (fun _ => 0)).flatMap (fun s =>
      s.2.map (fun r => (d, s.1, r))))

/-- `mesh` from src/src/world/chunk_mesh.rs lines 120-231.  The
caller-supplied buffer (asserted to hold MAX_VERTICES_PER_CHUNK vertices)
is modelled by the returned list: each `append_quad` writes its 6 vertices
at the running `buff_idx`, i.e. appends them. -/
def mesh (blocks : Nat → BlockId)
    (neighbours : Fin 6 → Option (Nat → BlockId)) : List Vertex :=
  (mesh_quads blocks neighbours).foldl
    (fun buff q =>
      let p := quad_points q.1 q.2.1 q.2.2
      append_quad buff p.1 p.2.1 p.2.2.1 p.2.2.2 (q.1.val * 2 + q.2.2.val - 1))
    []

theorem compute_w_spec (m : Mask) (n i : Nat) :
    ∀ (fuel w last : Nat), CHUNK_SIZE - (i + w) = fuel →
      last = m n → i + w ≤ CHUNK_SIZE →
      (∀ k, 1 ≤ k → k < w → m (n + k) ≠ 0 ∧ m (n + k) = m n) →
      (∀ k, 1 ≤ k → k < compute_w m n i w last →
          m (n + k) ≠ 0 ∧ m (n + k) = m n) ∧
        i + compute_w m n i w last ≤ CHUNK_SIZE := by
  intro fuel
  induction fuel using Nat.strong_induction_on with
  | _ fuel ih =>
    intro w last hf hlast hle hprev
    rw [compute_w]
    split
    · rename_i hc
      obtain ⟨hc1, hc2, hc3⟩ := hc
      refine ih (CHUNK_SIZE - (i + (w + 1))) (by omega) (w + 1) (m (n + w)) rfl
        (by rw [hc3, hlast]) (by omega) ?_
      intro k hk1 hk2
      rcases Nat.lt_or_ge k w with hk | hk
      · exact hprev k hk1 hk
      · have hkw : k = w := by omega
        subst hkw
        exact ⟨hc2, by rw [hc3, hlast]⟩
    · exact ⟨hprev, hle⟩

theorem check_row_spec (m : Mask) (n h w : Nat) :
    ∀ (fuel k last last' : Nat), w - k = fuel →
      last = m n →
      check_row m n h w k last = some last' →
      last' = m n ∧
        ∀ k', k ≤ k' → k' < w →
          m (n + k' + h * CHUNK_SIZE) ≠ 0 ∧ m (n + k' + h * CHUNK_SIZE) = m n := by
  intro fuel
  induction fuel using Nat.strong_induction_on with
  | _ fuel ih =>
    intro k last last' hf hlast hcr
    rw [check_row] at hcr
    split at hcr
    · rename_i hkw
      split at hcr
      · exact absurd hcr (by simp)
      · rename_i hok
        push_neg at hok
        obtain ⟨hnz, heq⟩ := hok
        have hmk : m (n + k + h * CHUNK_SIZE) = m n := by rw [heq, hlast]
        obtain ⟨hl', hrest⟩ := ih (w - (k + 1)) (by omega) (k + 1)
          (m (n + k + h * CHUNK_SIZE)) last' rfl hmk hcr
        refine ⟨hl', ?_⟩
        intro k' hk1 hk2
        rcases Nat.lt_or_ge k' (k + 1) with hk | hk
        · have : k' = k := by omega
          subst this
          exact ⟨hnz, hmk⟩
        · exact hrest k' hk hk2
    · simp only [Option.some.injEq] at hcr
      exact ⟨by rw [← hcr, hlast], fun k' hk1 hk2 => absurd (by omega : k < w) (by omega)⟩

theorem compute_h_spec (m : Mask) (n j w : Nat) :
    ∀ (fuel h last : Nat), CHUNK_SIZE - (j + h) = fuel →
      last = m n → j + h ≤ CHUNK_SIZE →
      h ≤ compute_h m n j w h last ∧
      j + compute_h m n j w h last ≤ CHUNK_SIZE ∧
      ∀ l, h ≤ l → l < compute_h m n j w h last → ∀ k, k < w →
        m (n + k + l * CHUNK_SIZE) ≠ 0 ∧ m (n + k + l * CHUNK_SIZE) = m n := by
  intro fuel
  induction fuel using Nat.strong_induction_on with
  | _ fuel ih =>
    intro h last hf hlast hle
    rw [compute_h]
    split
    · rename_i hjh
      rcases hcr : check_row m n h w 0 last with _ | last'
      · exact ⟨le_refl h, hle,
          fun l hl1 hl2 => absurd (show l < h from hl2) (not_lt.mpr hl1)⟩
      · obtain ⟨hl', hrow⟩ := check_row_spec m n h w (w - 0) 0 last last' rfl hlast hcr
        obtain ⟨ih1, ih2, ih3⟩ := ih (CHUNK_SIZE - (j + (h + 1))) (by omega) (h + 1)
          last' rfl hl' (by omega)
        refine ⟨le_trans (Nat.le_succ h) ih1, ih2, ?_⟩
        intro l hl1 hl2
        have hl2' : l < compute_h m n j w (h + 1) last' := hl2
        intro k hk
        rcases Nat.lt_or_ge l (h + 1) with hcase | hcase
        · have : l = h := by omega
          subst this
          exact hrow k (by omega) hk
        · exact ih3 l hcase hl2' k hk
    · exact ⟨le_refl h, hle,
        fun l hl1 hl2 => absurd (show l < h from hl2) (not_lt.mpr hl1)⟩

theorem zero_rect_k_out (n l w : Nat) :
    ∀ (fuel k : Nat) (m : Mask) (t : Nat), w - k = fuel →
      (∀ k', k ≤ k' → k' < w → t ≠ n + k' + l * CHUNK_SIZE) →
      zero_rect_k m n l w k t = m t := by
  intro fuel
  induction fuel using Nat.strong_induction_on with
  | _ fuel ih =>
    intro k m t hf hmiss
    rw [zero_rect_k]
    split
    · rename_i hkw
      rw [ih (w - (k + 1)) (by omega) (k + 1) _ t rfl
        (fun k' h1 h2 => hmiss k' (by omega) h2)]
      have : t ≠ n + k + l * CHUNK_SIZE := hmiss k (le_refl k) hkw
      simp [this]
    · rfl

theorem zero_rect_k_in (n l w : Nat) :
    ∀ (fuel k : Nat) (m : Mask) (k' : Nat), w - k = fuel → k ≤ k' → k' < w →
      zero_rect_k m n l w k (n + k' + l * CHUNK_SIZE) = 0 := by
  intro fuel
  induction fuel using Nat.strong_induction_on with
  | _ fuel ih =>
    intro k m k' hf hk1 hk2
    rw [zero_rect_k]
    split
    · rename_i hkw
      rcases Nat.lt_or_ge k' (k + 1) with hc | hc
      · have hke : k' = k := by omega
        subst hke
        rw [zero_rect_k_out n l w (w - (k' + 1)) (k' + 1) _ _ rfl ?_]
        · simp
        · intro k'' h1 h2 heq
          have : k'' = k' := by omega
          omega
      · exact ih (w - (k + 1)) (by omega) (k + 1) _ k' rfl hc hk2
    · omega

theorem zero_rect_l_out (n w h : Nat) :
    ∀ (fuel l : Nat) (m : Mask) (t : Nat), h - l = fuel →
      (∀ l' k', l ≤ l' → l' < h → k' < w → t ≠ n + k' + l' * CHUNK_SIZE) →
      zero_rect_l m n w h l t = m t := by
  intro fuel
  induction fuel using Nat.strong_induction_on with
  | _ fuel ih =>
    intro l m t hf hmiss
    rw [zero_rect_l]
    split
    · rename_i hlh
      rw [ih (h - (l + 1)) (by omega) (l + 1) _ t rfl
        (fun l' k' h1 h2 h3 => hmiss l' k' (by omega) h2 h3)]
      exact zero_rect_k_out n l w (w - 0) 0 m t rfl
        (fun k' h1 h2 => hmiss l k' (le_refl l) hlh h2)
    · rfl

theorem zero_rect_l_in (n w h : Nat) (hw : w ≤ CHUNK_SIZE) :
    ∀ (fuel l : Nat) (m : Mask) (l' k' : Nat), h - l = fuel → l ≤ l' → l' < h →
      k' < w →
      zero_rect_l m n w h l (n + k' + l' * CHUNK_SIZE) = 0 := by
  intro fuel
  induction fuel using Nat.strong_induction_on with
  | _ fuel ih =>
    intro l m l' k' hf hl1 hl2 hk
    rw [zero_rect_l]
    split
    · rename_i hlh
      rcases Nat.lt_or_ge l' (l + 1) with hc | hc
      · have hle : l' = l := by omega
        subst hle
        rw [zero_rect_l_out n w h (h - (l' + 1)) (l' + 1) _ _ rfl ?_]
        · exact zero_rect_k_in n l' w (w - 0) 0 m k' rfl (Nat.zero_le k') hk
        · intro l'' k'' h1 h2 h3 heq
          simp only [CHUNK_SIZE] at heq hw
          omega
      · exact ih (h - (l + 1)) (by omega) (l + 1) _ l' k' rfl hc hl2 hk
    · omega

theorem build_mask_u_char (blocks : Nat → BlockId)
    (nb : Fin 6 → Option (Nat → BlockId)) (d : Fin 3) (xd : Int) (xv : Nat) :
    ∀ (fuel xu n : Nat) (m : Mask), CHUNK_SIZE - xu = fuel →
      (build_mask_u blocks nb d xd xv xu n m).2 = n + (CHUNK_SIZE - xu) ∧
      ∀ t, (build_mask_u blocks nb d xd xv xu n m).1 t =
        if n ≤ t ∧ t < n + (CHUNK_SIZE - xu) then
          mask_entry blocks nb d xd (xu + (t - n)) xv
        else m t := by
  intro fuel
  induction fuel using Nat.strong_induction_on with
  | _ fuel ih =>
    intro xu n m hf
    rw [build_mask_u]
    split
    · rename_i hxu
      obtain ⟨ihn, iht⟩ := ih (CHUNK_SIZE - (xu + 1)) (by omega) (xu + 1) (n + 1)
        (fun k => if k = n then mask_entry blocks nb d xd xu xv else m k) rfl
      constructor
      · rw [ihn]
        omega
      · intro t
        rw [iht t]
        by_cases hcase : n + 1 ≤ t ∧ t < n + 1 + (CHUNK_SIZE - (xu + 1))
        · rw [if_pos hcase, if_pos (by omega),
            show xu + 1 + (t - (n + 1)) = xu + (t - n) from by omega]
        · rw [if_neg hcase]
          by_cases ht : t = n
          · subst ht
            rw [if_pos rfl,
              if_pos (show t ≤ t ∧ t < t + (CHUNK_SIZE - xu) from by omega),
              show xu + (t - t) = xu from by omega]
          · rw [if_neg ht, if_neg (by omega)]
    · exact ⟨by omega, fun t => by rw [if_neg (by omega)]⟩

theorem build_mask_v_char (blocks : Nat → BlockId)
    (nb : Fin 6 → Option (Nat → BlockId)) (d : Fin 3) (xd : Int) :
    ∀ (fuel xv n : Nat) (m : Mask), CHUNK_SIZE - xv = fuel →
      (build_mask_v blocks nb d xd xv n m).2 = n + CHUNK_SIZE * (CHUNK_SIZE - xv) ∧
      ∀ t, (build_mask_v blocks nb d xd xv n m).1 t =
        if n ≤ t ∧ t < n + CHUNK_SIZE * (CHUNK_SIZE - xv) then
          mask_entry blocks nb d xd ((t - n) % CHUNK_SIZE) (xv + (t - n) / CHUNK_SIZE)
        else m t := by
  intro fuel
  induction fuel using Nat.strong_induction_on with
  | _ fuel ih =>
    intro xv n m hf
    rw [build_mask_v]
    split
    · rename_i hxv
      obtain ⟨un, ut⟩ := build_mask_u_char blocks nb d xd xv (CHUNK_SIZE - 0) 0 n m rfl
      obtain ⟨ihn, iht⟩ := ih (CHUNK_SIZE - (xv + 1)) (by omega) (xv + 1)
        (build_mask_u blocks nb d xd xv 0 n m).2
        (build_mask_u blocks nb d xd xv 0 n m).1 rfl
      constructor
      · rw [ihn, un]
        simp only [CHUNK_SIZE] at hxv ⊢
        clear ih ihn iht un ut hf
        omega
      · intro t
        rw [iht t, un, ut t]
        simp only [CHUNK_SIZE] at *
        by_cases hcase : n + (32 - 0) ≤ t ∧ t < n + (32 - 0) + 32 * (32 - (xv + 1))
        · rw [if_pos hcase, if_pos (by omega),
            show xv + 1 + (t - (n + (32 - 0))) / 32 = xv + (t - n) / 32 from by omega,
            show (t - (n + (32 - 0))) % 32 = (t - n) % 32 from by omega]
        · rw [if_neg hcase]
          by_cases hin : n ≤ t ∧ t < n + (32 - 0)
          · rw [if_pos hin, if_pos (by omega),
              show (t - n) % 32 = 0 + (t - n) from by omega,
              show xv + (t - n) / 32 = xv from by omega]
          · rw [if_neg hin, if_neg (by omega)]
    · refine ⟨by simp only [CHUNK_SIZE] at *; omega, fun t => ?_⟩
      rw [if_neg (by simp only [CHUNK_SIZE] at *; omega)]

theorem build_mask_char (blocks : Nat → BlockId)
    (nb : Fin 6 → Option (Nat → BlockId)) (d : Fin 3) (xd : Int) (m : Mask)
    (t : Nat) :
    build_mask blocks nb d xd m t =
      if t < CHUNK_SIZE * CHUNK_SIZE then
        mask_entry blocks nb d xd (t % CHUNK_SIZE) (t / CHUNK_SIZE)
      else m t := by
  obtain ⟨_, vt⟩ := build_mask_v_char blocks nb d xd (CHUNK_SIZE - 0) 0 0 m rfl
  rw [build_mask, vt t]
  simp only [Nat.sub_zero, Nat.zero_add, zero_add, Nat.zero_le, true_and]

/-- Does a greedy rectangle cover the mask cell with flat index `c`
(`c = x[v] * CHUNK_SIZE + x[u]`)? -/
def rect_covers (r : GreedyRect) (c : Nat) : Bool :=
  decide (r.i ≤ c % CHUNK_SIZE) && decide (c % CHUNK_SIZE < r.i + r.w) &&
    decide (r.j ≤ c / CHUNK_SIZE) && decide (c / CHUNK_SIZE < r.j + r.h)

/-- How many of the emitted rectangles cover cell `c`. -/
def cover_count (rs : List GreedyRect) (c : Nat) : Nat :=
  rs.countP (fun r => rect_covers r c)

/-- Invariant of the greedy scan over one mask: relative to the mask `m0`
the scan started from, every cell is either still pending (unchanged) or
retired (zeroed and covered by exactly one emitted rectangle); cells
before the scan position are retired; emitted rectangles are in-bounds,
nonempty, uniform in `m0` and labelled by their nonzero mask value. -/
def ScanInv (m0 m : Mask) (acc : List GreedyRect) (pos : Nat) : Prop :=
  (∀ c, c < CHUNK_SIZE * CHUNK_SIZE → m c = 0 ∨ m c = m0 c) ∧
  (∀ c, c < CHUNK_SIZE * CHUNK_SIZE →
    cover_count acc c = if m0 c ≠ 0 ∧ m c = 0 then 1 else 0) ∧
  (∀ c, c < CHUNK_SIZE * CHUNK_SIZE → c < pos → m c = 0) ∧
  (∀ r ∈ acc, 1 ≤ r.w ∧ 1 ≤ r.h ∧ r.i + r.w ≤ CHUNK_SIZE ∧
    r.j + r.h ≤ CHUNK_SIZE ∧ r.val ≠ 0 ∧
    ∀ c, c < CHUNK_SIZE * CHUNK_SIZE → rect_covers r c = true → m0 c = r.val)

theorem rect_covers_iff (i j w h val c : Nat) (hiw : i + w ≤ CHUNK_SIZE)
    (hc : c < CHUNK_SIZE * CHUNK_SIZE) :
    rect_covers ⟨i, j, w, h, val⟩ c = true ↔
      ∃ k l, k < w ∧ l < h ∧ c = (j * CHUNK_SIZE + i) + k + l * CHUNK_SIZE := by
  simp only [rect_covers, Bool.and_eq_true, decide_eq_true_eq, CHUNK_SIZE] at *
  constructor
  · rintro ⟨⟨⟨h1, h2⟩, h3⟩, h4⟩
    exact ⟨c % 32 - i, c / 32 - j, by omega, by omega, by omega⟩
  · rintro ⟨k, l, hk, hl, rfl⟩
    have h1 : (j * 32 + i + k + l * 32) % 32 = i + k := by omega
    have h2 : (j * 32 + i + k + l * 32) / 32 = j + l := by omega
    omega

theorem scan_row_eq_emit (m : Mask) (j i n : Nat) (acc : List GreedyRect)
    (hi : i < CHUNK_SIZE) (hmn : m n ≠ 0) :
    scan_row m j i n acc =
      scan_row (zero_rect_l m n (compute_w m n i 1 (m n))
          (compute_h m n j (compute_w m n i 1 (m n)) 1 (m n)) 0)
        j (i + compute_w m n i 1 (m n)) (n + compute_w m n i 1 (m n))
        (acc ++ [⟨i, j, compute_w m n i 1 (m n),
          compute_h m n j (compute_w m n i 1 (m n)) 1 (m n), m n⟩]) := by
  conv_lhs => rw [scan_row]
  rw [if_pos hi, if_pos hmn]

theorem scan_row_eq_skip (m : Mask) (j i n : Nat) (acc : List GreedyRect)
    (hi : i < CHUNK_SIZE) (hmn : ¬ m n ≠ 0) :
    scan_row m j i n acc = scan_row m j (i + 1) (n + 1) acc := by
  conv_lhs => rw [scan_row]
  rw [if_pos hi, if_neg hmn]

theorem scan_row_eq_done (m : Mask) (j i n : Nat) (acc : List GreedyRect)
    (hi : ¬ i < CHUNK_SIZE) :
    scan_row m j i n acc = (m, acc) := by
  conv_lhs => rw [scan_row]
  rw [if_neg hi]

theorem emit_step (m0 m : Mask) (acc : List GreedyRect) (j i n : Nat)
    (hj : j < CHUNK_SIZE) (hi : i < CHUNK_SIZE) (hn : n = j * CHUNK_SIZE + i)
    (hmn : m n ≠ 0) (hinv : ScanInv m0 m acc n) :
    ScanInv m0
      (zero_rect_l m n (compute_w m n i 1 (m n))
        (compute_h m n j (compute_w m n i 1 (m n)) 1 (m n)) 0)
      (acc ++ [⟨i, j, compute_w m n i 1 (m n),
        compute_h m n j (compute_w m n i 1 (m n)) 1 (m n), m n⟩])
      (n + compute_w m n i 1 (m n)) := by
  obtain ⟨I1, I2, I3, I4⟩ := hinv
  set w := compute_w m n i 1 (m n) with hw
  set h := compute_h m n j w 1 (m n) with hh
  have hwge : 1 ≤ w := hw ▸ compute_w_ge m n i 1 (m n)
  obtain ⟨hwcells, hwle⟩ := compute_w_spec m n i (CHUNK_SIZE - (i + 1)) 1 (m n)
    rfl rfl (by omega) (fun k hk1 hk2 => absurd hk1 (by omega))
  obtain ⟨hhge, hhle, hhcells⟩ := compute_h_spec m n j w (CHUNK_SIZE - (j + 1)) 1
    (m n) rfl rfl (by omega)
  have hcells : ∀ k l, k < w → l < h → m (n + k + l * CHUNK_SIZE) = m n := by
    intro k l hk hl
    rcases Nat.eq_zero_or_pos l with rfl | hl0
    · rcases Nat.eq_zero_or_pos k with rfl | hk0
      · simp
      · have h2 := (hwcells k (by omega) hk).2
        simpa using h2
    · exact (hhcells l (by omega) hl k hk).2
  have hm'in : ∀ k l, k < w → l < h →
      zero_rect_l m n w h 0 (n + k + l * CHUNK_SIZE) = 0 :=
    fun k l hk hl =>
      zero_rect_l_in n w h (by omega) (h - 0) 0 m l k rfl (Nat.zero_le l) hl hk
  have hm'out : ∀ t, (∀ k l, k < w → l < h → t ≠ n + k + l * CHUNK_SIZE) →
      zero_rect_l m n w h 0 t = m t :=
    fun t hmiss =>
      zero_rect_l_out n w h (h - 0) 0 m t rfl (fun l' k' _ h2 h3 => hmiss k' l' h3 h2)
  have hcov : ∀ c, c < CHUNK_SIZE * CHUNK_SIZE →
      (rect_covers ⟨i, j, w, h, m n⟩ c = true ↔
        ∃ k l, k < w ∧ l < h ∧ c = n + k + l * CHUNK_SIZE) := by
    intro c hc
    rw [hn]
    exact rect_covers_iff i j w h (m n) c hwle hc
  refine ⟨?_, ?_, ?_, ?_⟩
  · intro c hc
    by_cases hcc : ∃ k l, k < w ∧ l < h ∧ c = n + k + l * CHUNK_SIZE
    · obtain ⟨k, l, hk, hl, rfl⟩ := hcc
      exact Or.inl (hm'in k l hk hl)
    · push_neg at hcc
      rw [hm'out c (fun k l hk hl => hcc k l hk hl)]
      exact I1 c hc
  · intro c hc
    rw [cover_count, List.countP_append]
    have hsingle : List.countP (fun r => rect_covers r c)
        [(⟨i, j, w, h, m n⟩ : GreedyRect)] =
        if rect_covers ⟨i, j, w, h, m n⟩ c = true then 1 else 0 := by
      simp [List.countP_cons]
    rw [hsingle]
    by_cases hcc : ∃ k l, k < w ∧ l < h ∧ c = n + k + l * CHUNK_SIZE
    · obtain ⟨k, l, hk, hl, rfl⟩ := hcc
      have hmc : m (n + k + l * CHUNK_SIZE) = m n := hcells k l hk hl
      have hm0 : m0 (n + k + l * CHUNK_SIZE) = m n := by
        rcases I1 _ hc with h0 | h0
        · omega
        · omega
      have hold : cover_count acc (n + k + l * CHUNK_SIZE) = 0 := by
        rw [I2 _ hc, if_neg]
        intro hcond
        omega
      rw [cover_count] at hold
      rw [hold, if_pos ((hcov _ hc).mpr ⟨k, l, hk, hl, rfl⟩)]
      rw [if_pos ⟨by omega, hm'in k l hk hl⟩]
    · push_neg at hcc
      have hout := hm'out c (fun k l hk hl => hcc k l hk hl)
      rw [if_neg (fun hcv => by
        obtain ⟨k, l, hk, hl, hceq⟩ := (hcov c hc).mp hcv
        exact hcc k l hk hl hceq)]
      simp only [cover_count] at I2
      rw [I2 c hc, hout, Nat.add_zero]
  · intro c hc hpos
    rcases Nat.lt_or_ge c n with hcn | hcn
    · have hz := I3 c hc hcn
      rw [hm'out c (fun k l hk hl hceq => by omega)]
      exact hz
    · have : c = n + (c - n) + 0 * CHUNK_SIZE := by omega
      rw [this]
      exact hm'in (c - n) 0 (by omega) (by omega)
  · intro r hr
    rw [List.mem_append] at hr
    rcases hr with hr | hr
    · exact I4 r hr
    · rw [List.mem_singleton] at hr
      subst hr
      refine ⟨hwge, hhge, hwle, hhle, hmn, ?_⟩
      intro c hc hcv
      obtain ⟨k, l, hk, hl, rfl⟩ := (hcov c hc).mp hcv
      have hmc := hcells k l hk hl
      show m0 (n + k + l * CHUNK_SIZE) = m n
      rcases I1 _ hc with h0 | h0
      · omega
      · omega

theorem scan_row_inv (m0 : Mask) :
    ∀ (fuel : Nat) (m : Mask) (j i n : Nat) (acc : List GreedyRect),
      CHUNK_SIZE - i = fuel → j < CHUNK_SIZE → i ≤ CHUNK_SIZE →
      n = j * CHUNK_SIZE + i → ScanInv m0 m acc n →
      ScanInv m0 (scan_row m j i n acc).1 (scan_row m j i n acc).2
        (j * CHUNK_SIZE + CHUNK_SIZE) := by
  intro fuel
  induction fuel using Nat.strong_induction_on with
  | _ fuel ih =>
    intro m j i n acc hf hj hile hn hinv
    by_cases hi : i < CHUNK_SIZE
    · by_cases hmn : m n ≠ 0
      · rw [scan_row_eq_emit m j i n acc hi hmn]
        have hstep := emit_step m0 m acc j i n hj hi hn hmn hinv
        have hwge := compute_w_ge m n i 1 (m n)
        have hwle := (compute_w_spec m n i (CHUNK_SIZE - (i + 1)) 1 (m n) rfl rfl
          (by omega) (fun k hk1 hk2 => absurd hk1 (by omega))).2
        exact ih (CHUNK_SIZE - (i + compute_w m n i 1 (m n))) (by omega) _ j _ _ _
          rfl hj (by omega) (by omega) hstep
      · rw [scan_row_eq_skip m j i n acc hi hmn]
        push_neg at hmn
        apply ih (CHUNK_SIZE - (i + 1)) (by omega) m j (i + 1) (n + 1) acc rfl hj
          (by omega) (by omega)
        obtain ⟨I1, I2, I3, I4⟩ := hinv
        refine ⟨I1, I2, fun c hc hcp => ?_, I4⟩
        rcases Nat.lt_or_ge c n with hcn | hcn
        · exact I3 c hc hcn
        · have : c = n := by omega
          subst this
          exact hmn
    · rw [scan_row_eq_done m j i n acc hi]
      have hnn : n = j * CHUNK_SIZE + CHUNK_SIZE := by omega
      rw [← hnn]
      exact hinv

theorem scan_rows_eq_step (m : Mask) (j : Nat) (acc : List GreedyRect)
    (hj : j < CHUNK_SIZE) :
    scan_rows m j acc =
      scan_rows (scan_row m j 0 (j * CHUNK_SIZE) acc).1 (j + 1)
        (scan_row m j 0 (j * CHUNK_SIZE) acc).2 := by
  conv_lhs => rw [scan_rows]
  rw [if_pos hj]

theorem scan_rows_eq_done (m : Mask) (j : Nat) (acc : List GreedyRect)
    (hj : ¬ j < CHUNK_SIZE) :
    scan_rows m j acc = (m, acc) := by
  conv_lhs => rw [scan_rows]
  rw [if_neg hj]

theorem scan_rows_inv (m0 : Mask) :
    ∀ (fuel : Nat) (m : Mask) (j : Nat) (acc : List GreedyRect),
      CHUNK_SIZE - j = fuel →
      ScanInv m0 m acc (j * CHUNK_SIZE) →
      ScanInv m0 (scan_rows m j acc).1 (scan_rows m j acc).2
        (CHUNK_SIZE * CHUNK_SIZE) := by
  intro fuel
  induction fuel using Nat.strong_induction_on with
  | _ fuel ih =>
    intro m j acc hf hinv
    by_cases hj : j < CHUNK_SIZE
    · rw [scan_rows_eq_step m j acc hj]
      have hrow := scan_row_inv m0 (CHUNK_SIZE - 0) m j 0 (j * CHUNK_SIZE) acc rfl
        hj (by omega) (by omega) hinv
      have hrow' : ScanInv m0 (scan_row m j 0 (j * CHUNK_SIZE) acc).1
          (scan_row m j 0 (j * CHUNK_SIZE) acc).2 ((j + 1) * CHUNK_SIZE) := by
        have : (j + 1) * CHUNK_SIZE = j * CHUNK_SIZE + CHUNK_SIZE := by ring
        rw [this]
        exact hrow
      exact ih (CHUNK_SIZE - (j + 1)) (by omega) _ (j + 1) _ rfl hrow'
    · rw [scan_rows_eq_done m j acc hj]
      obtain ⟨I1, I2, I3, I4⟩ := hinv
      refine ⟨I1, I2, fun c hc hcp => ?_, I4⟩
      refine I3 c hc ?_
      calc c < CHUNK_SIZE * CHUNK_SIZE := hcp
        _ ≤ j * CHUNK_SIZE := by
            have : CHUNK_SIZE ≤ j := by omega
            exact Nat.mul_le_mul_right CHUNK_SIZE this

theorem greedy_scan_tiling (m0 : Mask) :
    (∀ c, c < CHUNK_SIZE * CHUNK_SIZE →
      cover_count (scan_rows m0 0 []).2 c = if m0 c ≠ 0 then 1 else 0) ∧
    ∀ r ∈ (scan_rows m0 0 []).2, 1 ≤ r.w ∧ 1 ≤ r.h ∧ r.i + r.w ≤ CHUNK_SIZE ∧
      r.j + r.h ≤ CHUNK_SIZE ∧ r.val ≠ 0 ∧
      ∀ c, c < CHUNK_SIZE * CHUNK_SIZE → rect_covers r c = true → m0 c = r.val := by
  have hinit : ScanInv m0 m0 [] (0 * CHUNK_SIZE) := by
    refine ⟨fun c _ => Or.inr rfl, fun c hc => ?_, fun c hc hcp => by omega, ?_⟩
    · rw [cover_count, List.countP_nil, if_neg (fun hh => hh.1 hh.2)]
    · intro r hr
      exact absurd hr (List.not_mem_nil r)
  obtain ⟨I1, I2, I3, I4⟩ := scan_rows_inv m0 (CHUNK_SIZE - 0) m0 0 [] rfl hinit
  refine ⟨fun c hc => ?_, I4⟩
  rw [I2 c hc]
  have hz := I3 c hc hc
  by_cases h0 : m0 c ≠ 0
  · rw [if_pos ⟨h0, hz⟩, if_pos h0]
  · rw [if_neg (fun hh => h0 hh.1), if_neg h0]

theorem zero_rect_k_cases (n l w : Nat) :
    ∀ (fuel k : Nat) (m : Mask) (t : Nat), w - k = fuel →
      zero_rect_k m n l w k t = 0 ∨ zero_rect_k m n l w k t = m t := by
  intro fuel
  induction fuel using Nat.strong_induction_on with
  | _ fuel ih =>
    intro k m t hf
    rw [zero_rect_k]
    split
    · rename_i hkw
      rcases ih (w - (k + 1)) (by omega) (k + 1)
        (fun t' => if t' = n + k + l * CHUNK_SIZE then 0 else m t') t rfl with h | h
      · exact Or.inl h
      · rw [h]
        by_cases ht : t = n + k + l * CHUNK_SIZE
        · rw [if_pos ht]
          exact Or.inl rfl
        · rw [if_neg ht]
          exact Or.inr rfl
    · exact Or.inr rfl

theorem zero_rect_l_cases (n w h : Nat) :
    ∀ (fuel l : Nat) (m : Mask) (t : Nat), h - l = fuel →
      zero_rect_l m n w h l t = 0 ∨ zero_rect_l m n w h l t = m t := by
  intro fuel
  induction fuel using Nat.strong_induction_on with
  | _ fuel ih =>
    intro l m t hf
    rw [zero_rect_l]
    split
    · rename_i hlh
      rcases ih (h - (l + 1)) (by omega) (l + 1) (zero_rect_k m n l w 0) t rfl with
        hc | hc
      · exact Or.inl hc
      · rw [hc]
        exact zero_rect_k_cases n l w (w - 0) 0 m t rfl
    · exact Or.inr rfl

theorem scan_row_mask_cases (j : Nat) :
    ∀ (fuel i n : Nat) (m : Mask) (acc : List GreedyRect) (t : Nat),
      CHUNK_SIZE - i = fuel →
      (scan_row m j i n acc).1 t = 0 ∨ (scan_row m j i n acc).1 t = m t := by
  intro fuel
  induction fuel using Nat.strong_induction_on with
  | _ fuel ih =>
    intro i n m acc t hf
    by_cases hi : i < CHUNK_SIZE
    · by_cases hmn : m n ≠ 0
      · rw [scan_row_eq_emit m j i n acc hi hmn]
        have hw1 : 1 ≤ compute_w m n i 1 (m n) := compute_w_ge m n i 1 (m n)
        rcases ih (CHUNK_SIZE - (i + compute_w m n i 1 (m n))) (by omega) _ _ _ _ t
          rfl with hc | hc
        · exact Or.inl hc
        · rw [hc]
          exact zero_rect_l_cases n (compute_w m n i 1 (m n))
            (compute_h m n j (compute_w m n i 1 (m n)) 1 (m n))
            ((compute_h m n j (compute_w m n i 1 (m n)) 1 (m n)) - 0) 0 m t rfl
      · rw [scan_row_eq_skip m j i n acc hi hmn]
        exact ih (CHUNK_SIZE - (i + 1)) (by omega) (i + 1) (n + 1) m acc t rfl
    · rw [scan_row_eq_done m j i n acc hi]
      exact Or.inr rfl

theorem scan_rows_mask_cases :
    ∀ (fuel j : Nat) (m : Mask) (acc : List GreedyRect) (t : Nat),
      CHUNK_SIZE - j = fuel →
      (scan_rows m j acc).1 t = 0 ∨ (scan_rows m j acc).1 t = m t := by
  intro fuel
  induction fuel using Nat.strong_induction_on with
  | _ fuel ih =>
    intro j m acc t hf
    by_cases hj : j < CHUNK_SIZE
    · rw [scan_rows_eq_step m j acc hj]
      rcases ih (CHUNK_SIZE - (j + 1)) (by omega) (j + 1) _ _ t rfl with hc | hc
      · exact Or.inl hc
      · rw [hc]
        exact scan_row_mask_cases j (CHUNK_SIZE - 0) 0 (j * CHUNK_SIZE) m acc t rfl
    · rw [scan_rows_eq_done m j acc hj]
      exact Or.inr rfl

/-- The mask contents of one slab as a standalone function: entry `(u, v)`
at flat index `v * CHUNK_SIZE + u`, zero outside the mask area. -/
def slab_mask (blocks : Nat → BlockId) (nb : Fin 6 → Option (Nat → BlockId))
    (d : Fin 3) (xd : Int) : Mask :=
  fun t =>
    if t < CHUNK_SIZE * CHUNK_SIZE then
      mask_entry blocks nb d xd (t % CHUNK_SIZE) (t / CHUNK_SIZE)
    else 0

theorem build_mask_eq_slab_mask (blocks : Nat → BlockId)
    (nb : Fin 6 → Option (Nat → BlockId)) (d : Fin 3) (xd : Int) (m : Mask)
    (hm : ∀ t, CHUNK_SIZE * CHUNK_SIZE ≤ t → m t = 0) :
    build_mask blocks nb d xd m = slab_mask blocks nb d xd := by
  funext t
  rw [build_mask_char, slab_mask]
  by_cases hc : t < CHUNK_SIZE * CHUNK_SIZE
  · rw [if_pos hc, if_pos hc]
  · rw [if_neg hc, if_neg hc]
    exact hm t (by omega)

/-- The rectangles emitted by the greedy scan over the slab at `x[d] = xd`. -/
def slab_rects (blocks : Nat → BlockId) (nb : Fin 6 → Option (Nat → BlockId))
    (d : Fin 3) (xd : Int) : List GreedyRect :=
  (scan_rows (slab_mask blocks nb d xd) 0 []).2

/-- The slab loop with each slab's mask rebuilt from scratch; proved equal
to `axis_slabs`, whose mask is threaded through (every entry below
`CHUNK_SIZE²` is overwritten by `build_mask` and everything above stays
zero). -/
def slab_entries (blocks : Nat → BlockId) (nb : Fin 6 → Option (Nat → BlockId))
    (d : Fin 3) (xd : Int) : List (Int × List GreedyRect) :=
  if h : xd < CHUNK_SIZE then
    (xd + 1, slab_rects blocks nb d xd) :: slab_entries blocks nb d (xd + 1)
  else []
termination_by (CHUNK_SIZE - xd).toNat
decreasing_by
  simp only [CHUNK_SIZE] at *
  omega

theorem slab_mask_zero_above (blocks : Nat → BlockId)
    (nb : Fin 6 → Option (Nat → BlockId)) (d : Fin 3) (xd : Int) (t : Nat)
    (ht : CHUNK_SIZE * CHUNK_SIZE ≤ t) :
    slab_mask blocks nb d xd t = 0 := by
  rw [slab_mask, if_neg (by omega)]

theorem axis_slabs_eq (blocks : Nat → BlockId)
    (nb : Fin 6 → Option (Nat → BlockId)) (d : Fin 3) :
    ∀ (fuel : Nat) (xd : Int) (m : Mask), (CHUNK_SIZE - xd).toNat = fuel →
      (∀ t, CHUNK_SIZE * CHUNK_SIZE ≤ t → m t = 0) →
      axis_slabs blocks nb d xd m = slab_entries blocks nb d xd := by
  intro fuel
  induction fuel using Nat.strong_induction_on with
  | _ fuel ih =>
    intro xd m hf hm
    by_cases hxd : xd < (CHUNK_SIZE : Int)
    · conv_lhs => rw [axis_slabs]
      conv_rhs => rw [slab_entries]
      rw [dif_pos hxd, dif_pos hxd]
      show (xd + 1, (slab_pass blocks nb d xd m).2) ::
          axis_slabs blocks nb d (xd + 1) (slab_pass blocks nb d xd m).1 = _
      have hbm : build_mask blocks nb d xd m = slab_mask blocks nb d xd :=
        build_mask_eq_slab_mask blocks nb d xd m hm
      have hpass : slab_pass blocks nb d xd m =
          scan_rows (slab_mask blocks nb d xd) 0 [] := by
        rw [slab_pass, hbm]
      rw [hpass]
      have hrec := ih ((CHUNK_SIZE - (xd + 1)).toNat)
        (by simp only [CHUNK_SIZE] at *; omega) (xd + 1)
        (scan_rows (slab_mask blocks nb d xd) 0 []).1 rfl ?_
      · rw [hrec, slab_rects]
      · intro t ht
        rcases scan_rows_mask_cases (CHUNK_SIZE - 0) 0 (slab_mask blocks nb d xd)
          [] t rfl with hc | hc
        · exact hc
        · rw [hc]
          exact slab_mask_zero_above blocks nb d xd t ht
    · conv_lhs => rw [axis_slabs]
      conv_rhs => rw [slab_entries]
      rw [dif_neg hxd, dif_neg hxd]

theorem try_new_eq_some (x y z : Int)
    (h1 : 0 ≤ x) (h2 : x < (CHUNK_SIZE : Int)) (h3 : 0 ≤ y)
    (h4 : y < (CHUNK_SIZE : Int)) (h5 : 0 ≤ z) (h6 : z < (CHUNK_SIZE : Int)) :
    LocalBlockPos.try_new x y z = some ⟨x.toNat, y.toNat, z.toNat⟩ := by
  rw [LocalBlockPos.try_new, if_neg (by push_neg; exact ⟨h2, h4, h6⟩),
    if_pos ⟨h1, h3, h5⟩]

theorem try_new_eq_none (x y z : Int)
    (h : ¬ (0 ≤ x ∧ x < (CHUNK_SIZE : Int) ∧ 0 ≤ y ∧ y < (CHUNK_SIZE : Int) ∧
      0 ≤ z ∧ z < (CHUNK_SIZE : Int))) :
    LocalBlockPos.try_new x y z = none := by
  rw [LocalBlockPos.try_new]
  split
  · rfl
  · rename_i hor
    push_neg at hor
    rw [if_neg]
    intro hc
    exact h ⟨hc.1, hor.1, hc.2.1, hor.2.1, hc.2.2, hor.2.2⟩

theorem block_exist_core_some (blocks : Nat → BlockId)
    (nb : Fin 6 → Option (Nat → BlockId)) (bp pos : Int × Int × Int)
    (p : LocalBlockPos)
    (h : LocalBlockPos.try_new pos.1 pos.2.1 pos.2.2 = some p) :
    block_exist_core blocks nb bp pos = (blocks p.to_index != BlockId.Air) := by
  rw [block_exist_core, h]

theorem block_exist_core_none (blocks : Nat → BlockId)
    (nb : Fin 6 → Option (Nat → BlockId)) (bp pos : Int × Int × Int)
    (h : LocalBlockPos.try_new pos.1 pos.2.1 pos.2.2 = none) :
    block_exist_core blocks nb bp pos = probe_neighbour nb (oob_probe bp pos) := by
  rw [block_exist_core, h]

theorem oob_probe_0 (bp pos : Int × Int × Int)
    (h1 : pos.1 ≥ (CHUNK_SIZE : Int)) :
    oob_probe bp pos = (0, ⟨0, bp.2.1.toNat, bp.2.2.toNat⟩) := by
  rw [oob_probe, if_pos h1]

theorem oob_probe_1 (bp pos : Int × Int × Int)
    (h1 : ¬ pos.1 ≥ (CHUNK_SIZE : Int)) (h2 : pos.1 < 0) :
    oob_probe bp pos = (1, ⟨CHUNK_SIZE - 1, bp.2.1.toNat, bp.2.2.toNat⟩) := by
  rw [oob_probe, if_neg h1, if_pos h2]

theorem oob_probe_2 (bp pos : Int × Int × Int)
    (h1 : ¬ pos.1 ≥ (CHUNK_SIZE : Int)) (h2 : ¬ pos.1 < 0)
    (h3 : pos.2.1 ≥ (CHUNK_SIZE : Int)) :
    oob_probe bp pos = (2, ⟨bp.1.toNat, 0, bp.2.2.toNat⟩) := by
  rw [oob_probe, if_neg h1, if_neg h2, if_pos h3]

theorem oob_probe_3 (bp pos : Int × Int × Int)
    (h1 : ¬ pos.1 ≥ (CHUNK_SIZE : Int)) (h2 : ¬ pos.1 < 0)
    (h3 : ¬ pos.2.1 ≥ (CHUNK_SIZE : Int)) (h4 : pos.2.1 < 0) :
    oob_probe bp pos = (3, ⟨bp.1.toNat, CHUNK_SIZE - 1, bp.2.2.toNat⟩) := by
  rw [oob_probe, if_neg h1, if_neg h2, if_neg h3, if_pos h4]

theorem oob_probe_4 (bp pos : Int × Int × Int)
    (h1 : ¬ pos.1 ≥ (CHUNK_SIZE : Int)) (h2 : ¬ pos.1 < 0)
    (h3 : ¬ pos.2.1 ≥ (CHUNK_SIZE : Int)) (h4 : ¬ pos.2.1 < 0)
    (h5 : pos.2.2 ≥ (CHUNK_SIZE : Int)) :
    oob_probe bp pos = (4, ⟨bp.1.toNat, bp.2.1.toNat, 0⟩) := by
  rw [oob_probe, if_neg h1, if_neg h2, if_neg h3, if_neg h4, if_pos h5]

theorem oob_probe_5 (bp pos : Int × Int × Int)
    (h1 : ¬ pos.1 ≥ (CHUNK_SIZE : Int)) (h2 : ¬ pos.1 < 0)
    (h3 : ¬ pos.2.1 ≥ (CHUNK_SIZE : Int)) (h4 : ¬ pos.2.1 < 0)
    (h5 : ¬ pos.2.2 ≥ (CHUNK_SIZE : Int)) :
    oob_probe bp pos = (5, ⟨bp.1.toNat, bp.2.1.toNat, CHUNK_SIZE - 1⟩) := by
  rw [oob_probe, if_neg h1, if_neg h2, if_neg h3, if_neg h4, if_neg h5]

/-- Whether the block on the `x[d] = s` side of the slab boundary is solid,
as probed by `block_exist` (the "current" probe of chunk_mesh.rs lines
146-148 at `x[d] = s`). -/
def side_exist (blocks : Nat → BlockId) (nb : Fin 6 → Option (Nat → BlockId))
    (d : Fin 3) (s : Int) (u v : Nat) : Bool :=
  block_exist blocks nb (place d s u v) (0, 0, 0)

/-- The mask value as a function of the two side solidities (the `match`
of chunk_mesh.rs lines 149-153). -/
def face_val (a b : Bool) : Nat :=
  match a, b with
  | true, true => 0
  | false, false => 0
  | true, false => 1
  | false, true => 2

theorem face_val_ne_zero (a b : Bool) : face_val a b ≠ 0 ↔ a ≠ b := by
  cases a <;> cases b <;> simp [face_val]

theorem face_val_eq_one {a b : Bool} (h : face_val a b = 1) :
    a = true ∧ b = false := by
  cases a <;> cases b <;> simp_all [face_val]

theorem face_val_eq_two {a b : Bool} (h : face_val a b = 2) :
    a = false ∧ b = true := by
  cases a <;> cases b <;> simp_all [face_val]

theorem face_val_cases (a b : Bool) :
    face_val a b = 0 ∨ face_val a b = 1 ∨ face_val a b = 2 := by
  cases a <;> cases b <;> simp [face_val]

/-- The "compare" probe of `block_exist` at `x + q` (chunk_mesh.rs lines
149, 131-135) agrees with the "current" probe of the next slab: for
in-range `u`, `v` the only possibly out-of-range coordinate is the `d`
one, so both probes hit the same neighbour cell. -/
theorem block_exist_compare (blocks : Nat → BlockId)
    (nb : Fin 6 → Option (Nat → BlockId)) (d : Fin 3) (s : Int) (u v : Nat)
    (hu : u < CHUNK_SIZE) (hv : v < CHUNK_SIZE) :
    block_exist blocks nb (place d s u v) (place d 1 0 0)
      = side_exist blocks nb d (s + 1) u v := by
  have hu' : ((u : Int)) < (CHUNK_SIZE : Int) := by exact_mod_cast hu
  have hv' : ((v : Int)) < (CHUNK_SIZE : Int) := by exact_mod_cast hv
  fin_cases d
  · show block_exist_core blocks nb (s, (u : Int), (v : Int))
        (s + 1, (u : Int) + 0, (v : Int) + 0)
      = block_exist_core blocks nb (s + 1, (u : Int), (v : Int))
        (s + 1 + 0, (u : Int) + 0, (v : Int) + 0)
    simp only [add_zero]
    rcases (by omega :
        ((0 : Int) ≤ s + 1 ∧ s + 1 < (CHUNK_SIZE : Int)) ∨
          (CHUNK_SIZE : Int) ≤ s + 1 ∨ s + 1 < 0) with hin | hout | hlow
    · rw [block_exist_core_some blocks nb _ _
          ⟨(s + 1).toNat, ((u : Int)).toNat, ((v : Int)).toNat⟩
          (try_new_eq_some _ _ _ hin.1 hin.2 (by omega) hu' (by omega) hv'),
        block_exist_core_some blocks nb _ _
          ⟨(s + 1).toNat, ((u : Int)).toNat, ((v : Int)).toNat⟩
          (try_new_eq_some _ _ _ hin.1 hin.2 (by omega) hu' (by omega) hv')]
    · rw [block_exist_core_none blocks nb _ _ (try_new_eq_none _ _ _ (by omega)),
        block_exist_core_none blocks nb _ _ (try_new_eq_none _ _ _ (by omega)),
        oob_probe_0 _ _ hout, oob_probe_0 _ _ hout]
    · rw [block_exist_core_none blocks nb _ _ (try_new_eq_none _ _ _ (by omega)),
        block_exist_core_none blocks nb _ _ (try_new_eq_none _ _ _ (by omega)),
        oob_probe_1 _ _ (by omega) hlow, oob_probe_1 _ _ (by omega) hlow]
  · show block_exist_core blocks nb ((v : Int), s, (u : Int))
        ((v : Int) + 0, s + 1, (u : Int) + 0)
      = block_exist_core blocks nb ((v : Int), s + 1, (u : Int))
        ((v : Int) + 0, s + 1 + 0, (u : Int) + 0)
    simp only [add_zero]
    rcases (by omega :
        ((0 : Int) ≤ s + 1 ∧ s + 1 < (CHUNK_SIZE : Int)) ∨
          (CHUNK_SIZE : Int) ≤ s + 1 ∨ s + 1 < 0) with hin | hout | hlow
    · rw [block_exist_core_some blocks nb _ _
          ⟨((v : Int)).toNat, (s + 1).toNat, ((u : Int)).toNat⟩
          (try_new_eq_some _ _ _ (by omega) hv' hin.1 hin.2 (by omega) hu'),
        block_exist_core_some blocks nb _ _
          ⟨((v : Int)).toNat, (s + 1).toNat, ((u : Int)).toNat⟩
          (try_new_eq_some _ _ _ (by omega) hv' hin.1 hin.2 (by omega) hu')]
    · rw [block_exist_core_none blocks nb _ _
          (try_new_eq_none ((v : Int)) (s + 1) ((u : Int)) (by omega)),
        block_exist_core_none blocks nb _ _
          (try_new_eq_none ((v : Int)) (s + 1) ((u : Int)) (by omega)),
        oob_probe_2 _ _ (show ¬ ((v : Int) ≥ (CHUNK_SIZE : Int)) by omega)
          (show ¬ ((v : Int) < 0) by omega)
          (show (s + 1 : Int) ≥ (CHUNK_SIZE : Int) from hout),
        oob_probe_2 _ _ (show ¬ ((v : Int) ≥ (CHUNK_SIZE : Int)) by omega)
          (show ¬ ((v : Int) < 0) by omega)
          (show (s + 1 : Int) ≥ (CHUNK_SIZE : Int) from hout)]
    · rw [block_exist_core_none blocks nb _ _
          (try_new_eq_none ((v : Int)) (s + 1) ((u : Int)) (by omega)),
        block_exist_core_none blocks nb _ _
          (try_new_eq_none ((v : Int)) (s + 1) ((u : Int)) (by omega)),
        oob_probe_3 _ _ (show ¬ ((v : Int) ≥ (CHUNK_SIZE : Int)) by omega)
          (show ¬ ((v : Int) < 0) by omega)
          (show ¬ ((s + 1 : Int) ≥ (CHUNK_SIZE : Int)) by omega)
          (show (s + 1 : Int) < 0 from hlow),
        oob_probe_3 _ _ (show ¬ ((v : Int) ≥ (CHUNK_SIZE : Int)) by omega)
          (show ¬ ((v : Int) < 0) by omega)
          (show ¬ ((s + 1 : Int) ≥ (CHUNK_SIZE : Int)) by omega)
          (show (s + 1 : Int) < 0 from hlow)]
  · show block_exist_core blocks nb ((u : Int), (v : Int), s)
        ((u : Int) + 0, (v : Int) + 0, s + 1)
      = block_exist_core blocks nb ((u : Int), (v : Int), s + 1)
        ((u : Int) + 0, (v : Int) + 0, s + 1 + 0)
    simp only [add_zero]
    rcases (by omega :
        ((0 : Int) ≤ s + 1 ∧ s + 1 < (CHUNK_SIZE : Int)) ∨
          (CHUNK_SIZE : Int) ≤ s + 1 ∨ s + 1 < 0) with hin | hout | hlow
    · rw [block_exist_core_some blocks nb _ _
          ⟨((u : Int)).toNat, ((v : Int)).toNat, (s + 1).toNat⟩
          (try_new_eq_some _ _ _ (by omega) hu' (by omega) hv' hin.1 hin.2),
        block_exist_core_some blocks nb _ _
          ⟨((u : Int)).toNat, ((v : Int)).toNat, (s + 1).toNat⟩
          (try_new_eq_some _ _ _ (by omega) hu' (by omega) hv' hin.1 hin.2)]
    · rw [block_exist_core_none blocks nb _ _
          (try_new_eq_none ((u : Int)) ((v : Int)) (s + 1) (by omega)),
        block_exist_core_none blocks nb _ _
          (try_new_eq_none ((u : Int)) ((v : Int)) (s + 1) (by omega)),
        oob_probe_4 _ _ (show ¬ ((u : Int) ≥ (CHUNK_SIZE : Int)) by omega)
          (show ¬ ((u : Int) < 0) by omega)
          (show ¬ ((v : Int) ≥ (CHUNK_SIZE : Int)) by omega)
          (show ¬ ((v : Int) < 0) by omega)
          (show (s + 1 : Int) ≥ (CHUNK_SIZE : Int) from hout),
        oob_probe_4 _ _ (show ¬ ((u : Int) ≥ (CHUNK_SIZE : Int)) by omega)
          (show ¬ ((u : Int) < 0) by omega)
          (show ¬ ((v : Int) ≥ (CHUNK_SIZE : Int)) by omega)
          (show ¬ ((v : Int) < 0) by omega)
          (show (s + 1 : Int) ≥ (CHUNK_SIZE : Int) from hout)]
    · rw [block_exist_core_none blocks nb _ _
          (try_new_eq_none ((u : Int)) ((v : Int)) (s + 1) (by omega)),
        block_exist_core_none blocks nb _ _
          (try_new_eq_none ((u : Int)) ((v : Int)) (s + 1) (by omega)),
        oob_probe_5 _ _ (show ¬ ((u : Int) ≥ (CHUNK_SIZE : Int)) by omega)
          (show ¬ ((u : Int) < 0) by omega)
          (show ¬ ((v : Int) ≥ (CHUNK_SIZE : Int)) by omega)
          (show ¬ ((v : Int) < 0) by omega)
          (show ¬ ((s + 1 : Int) ≥ (CHUNK_SIZE : Int)) by omega),
        oob_probe_5 _ _ (show ¬ ((u : Int) ≥ (CHUNK_SIZE : Int)) by omega)
          (show ¬ ((u : Int) < 0) by omega)
          (show ¬ ((v : Int) ≥ (CHUNK_SIZE : Int)) by omega)
          (show ¬ ((v : Int) < 0) by omega)
          (show ¬ ((s + 1 : Int) ≥ (CHUNK_SIZE : Int)) by omega)]

/-- One mask entry is `face_val` of the two side solidities at the slab
boundary. -/
theorem mask_entry_char (blocks : Nat → BlockId)
    (nb : Fin 6 → Option (Nat → BlockId)) (d : Fin 3) (s : Int) (u v : Nat)
    (hu : u < CHUNK_SIZE) (hv : v < CHUNK_SIZE) :
    mask_entry blocks nb d s u v
      = face_val (side_exist blocks nb d s u v)
          (side_exist blocks nb d (s + 1) u v) := by
  rw [← block_exist_compare blocks nb d s u v hu hv]
  cases h1 : block_exist blocks nb (place d s u v) (0, 0, 0) <;>
    cases h2 : block_exist blocks nb (place d s u v) (place d 1 0 0) <;>
      simp [mask_entry, face_val, side_exist, h1, h2]

/-- The local position read for an in-range probe on axis `d` at depth
`a`, cross-coordinates `(u, v)`. -/
def placeN (d : Fin 3) (a u v : Nat) : LocalBlockPos :=
  match d with
  | 0 => ⟨a, u, v⟩
  | 1 => ⟨v, a, u⟩
  | 2 => ⟨u, v, a⟩

theorem side_exist_in (blocks : Nat → BlockId)
    (nb : Fin 6 → Option (Nat → BlockId)) (d : Fin 3) (s : Int) (u v : Nat)
    (hs1 : 0 ≤ s) (hs2 : s < (CHUNK_SIZE : Int)) (hu : u < CHUNK_SIZE)
    (hv : v < CHUNK_SIZE) :
    side_exist blocks nb d s u v
      = (blocks (placeN d s.toNat u v).to_index != BlockId.Air) := by
  have hu' : ((u : Int)) < (CHUNK_SIZE : Int) := by exact_mod_cast hu
  have hv' : ((v : Int)) < (CHUNK_SIZE : Int) := by exact_mod_cast hv
  fin_cases d
  · show block_exist_core blocks nb (s, (u : Int), (v : Int))
        (s + 0, (u : Int) + 0, (v : Int) + 0) = _
    simp only [add_zero]
    rw [block_exist_core_some blocks nb _ _
        ⟨s.toNat, ((u : Int)).toNat, ((v : Int)).toNat⟩
        (try_new_eq_some _ _ _ hs1 hs2 (by omega) hu' (by omega) hv')]
    simp only [Int.toNat_natCast]
    rfl
  · show block_exist_core blocks nb ((v : Int), s, (u : Int))
        ((v : Int) + 0, s + 0, (u : Int) + 0) = _
    simp only [add_zero]
    rw [block_exist_core_some blocks nb _ _
        ⟨((v : Int)).toNat, s.toNat, ((u : Int)).toNat⟩
        (try_new_eq_some _ _ _ (by omega) hv' hs1 hs2 (by omega) hu')]
    simp only [Int.toNat_natCast]
    rfl
  · show block_exist_core blocks nb ((u : Int), (v : Int), s)
        ((u : Int) + 0, (v : Int) + 0, s + 0) = _
    simp only [add_zero]
    rw [block_exist_core_some blocks nb _ _
        ⟨((u : Int)).toNat, ((v : Int)).toNat, s.toNat⟩
        (try_new_eq_some _ _ _ (by omega) hu' (by omega) hv' hs1 hs2)]
    simp only [Int.toNat_natCast]
    rfl

/-- With no neighbour chunks at all, an out-of-range side probe reads
empty. -/
theorem side_exist_none (blocks : Nat → BlockId) (d : Fin 3) (s : Int)
    (u v : Nat) (hs : s < 0 ∨ (CHUNK_SIZE : Int) ≤ s) :
    side_exist blocks (fun _ => none) d s u v = false := by
  fin_cases d
  · show block_exist_core blocks (fun _ => none) (s, (u : Int), (v : Int))
        (s + 0, (u : Int) + 0, (v : Int) + 0) = false
    rw [block_exist_core_none _ _ _ _ (try_new_eq_none _ _ _ (by omega))]
    rfl
  · show block_exist_core blocks (fun _ => none) ((v : Int), s, (u : Int))
        ((v : Int) + 0, s + 0, (u : Int) + 0) = false
    rw [block_exist_core_none _ _ _ _
      (try_new_eq_none ((v : Int) + 0) (s + 0) ((u : Int) + 0) (by omega))]
    rfl
  · show block_exist_core blocks (fun _ => none) ((u : Int), (v : Int), s)
        ((u : Int) + 0, (v : Int) + 0, s + 0) = false
    rw [block_exist_core_none _ _ _ _
      (try_new_eq_none ((u : Int) + 0) ((v : Int) + 0) (s + 0) (by omega))]
    rfl

/-- Does the emitted quad `q` lie in the boundary plane `x[d] = t` and
cover the face at mask cell `c` (`c = x[v] * CHUNK_SIZE + x[u]`)? -/
def face_covers (q : Fin 3 × Int × GreedyRect) (d : Fin 3) (t : Int) (c : Nat) :
    Bool :=
  decide (q.1 = d) && decide (q.2.1 = t) && rect_covers q.2.2 c

theorem slab_rects_count (blocks : Nat → BlockId)
    (nb : Fin 6 → Option (Nat → BlockId)) (d : Fin 3) (s : Int) (c : Nat)
    (hc : c < CHUNK_SIZE * CHUNK_SIZE) :
    (slab_rects blocks nb d s).countP (fun r => rect_covers r c)
      = if slab_mask blocks nb d s c ≠ 0 then 1 else 0 :=
  (greedy_scan_tiling (slab_mask blocks nb d s)).1 c hc

theorem slab_rects_wf (blocks : Nat → BlockId)
    (nb : Fin 6 → Option (Nat → BlockId)) (d : Fin 3) (s : Int) (r : GreedyRect)
    (hr : r ∈ slab_rects blocks nb d s) :
    1 ≤ r.w ∧ 1 ≤ r.h ∧ r.i + r.w ≤ CHUNK_SIZE ∧ r.j + r.h ≤ CHUNK_SIZE ∧
      r.val ≠ 0 ∧
      ∀ c, c < CHUNK_SIZE * CHUNK_SIZE → rect_covers r c = true →
        slab_mask blocks nb d s c = r.val :=
  (greedy_scan_tiling (slab_mask blocks nb d s)).2 r hr

theorem slab_entries_countP (blocks : Nat → BlockId)
    (nb : Fin 6 → Option (Nat → BlockId)) (d : Fin 3) (t : Int) (c : Nat) :
    ∀ (fuel : Nat) (xd : Int), ((CHUNK_SIZE : Int) - xd).toNat = fuel →
      ((slab_entries blocks nb d xd).flatMap
          (fun s => s.2.map (fun r => (d, s.1, r)))).countP
        (fun q => face_covers q d t c)
      = if xd < t ∧ t ≤ (CHUNK_SIZE : Int) then
          (slab_rects blocks nb d (t - 1)).countP (fun r => rect_covers r c)
        else 0 := by
  intro fuel
  induction fuel using Nat.strong_induction_on with
  | _ fuel ih =>
    intro xd hf
    by_cases hxd : xd < (CHUNK_SIZE : Int)
    · conv_lhs => rw [slab_entries]
      rw [dif_pos hxd, List.flatMap_cons, List.countP_append, List.countP_map,
        ih ((CHUNK_SIZE - (xd + 1)).toNat) (by simp only [CHUNK_SIZE] at *; omega)
          (xd + 1) rfl]
      by_cases ht : t = xd + 1
      · subst ht
        rw [if_neg (show ¬ (xd + 1 < xd + 1 ∧ xd + 1 ≤ (CHUNK_SIZE : Int)) from
            by omega),
          if_pos (show xd < xd + 1 ∧ xd + 1 ≤ (CHUNK_SIZE : Int) from
            ⟨by omega, by omega⟩)]
        have hpred : ((fun q => face_covers q d (xd + 1) c) ∘
            (fun r => (d, (xd + 1 : Int), r))) = fun r => rect_covers r c := by
          funext r
          simp [face_covers]
        rw [hpred, show (xd + 1 - 1 : Int) = xd from by ring, add_zero]
      · rw [List.countP_eq_zero.mpr ?_, zero_add]
        · by_cases hcond : xd + 1 < t ∧ t ≤ (CHUNK_SIZE : Int)
          · rw [if_pos hcond, if_pos ⟨by omega, hcond.2⟩]
          · rw [if_neg hcond, if_neg (fun hc2 => hcond ⟨by omega, hc2.2⟩)]
        · intro r hr
          simp only [Function.comp_apply, face_covers, Bool.and_eq_true,
            decide_eq_true_eq]
          rintro ⟨⟨-, h2⟩, -⟩
          exact ht h2.symm
    · conv_lhs => rw [slab_entries]
      rw [dif_neg hxd]
      simp only [List.flatMap_nil, List.countP_nil]
      rw [if_neg (by omega)]

theorem axis_countP_ne (blocks : Nat → BlockId)
    (nb : Fin 6 → Option (Nat → BlockId)) (da d : Fin 3) (t : Int) (c : Nat)
    (hne : da ≠ d) :
    ((axis_slabs blocks nb da (-1) (fun _ => 0)).flatMap
        (fun s => s.2.map (fun r => (da, s.1, r)))).countP
      (fun q => face_covers q d t c) = 0 := by
  apply List.countP_eq_zero.mpr
  intro q hq
  simp only [List.mem_flatMap, List.mem_map] at hq
  obtain ⟨s, hs, r, hr, rfl⟩ := hq
  simp only [face_covers, Bool.and_eq_true, decide_eq_true_eq]
  rintro ⟨⟨h1, -⟩, -⟩
  exact hne h1

theorem axis_countP_eq (blocks : Nat → BlockId)
    (nb : Fin 6 → Option (Nat → BlockId)) (d : Fin 3) (t : Int) (c : Nat)
    (h0 : -1 < t) (h1 : t ≤ (CHUNK_SIZE : Int)) :
    ((axis_slabs blocks nb d (-1) (fun _ => 0)).flatMap
        (fun s => s.2.map (fun r => (d, s.1, r)))).countP
      (fun q => face_covers q d t c)
      = (slab_rects blocks nb d (t - 1)).countP (fun r => rect_covers r c) := by
  rw [axis_slabs_eq blocks nb d (((CHUNK_SIZE : Int) - (-1)).toNat) (-1)
      (fun _ => 0) rfl (fun _ _ => rfl),
    slab_entries_countP blocks nb d t c (((CHUNK_SIZE : Int) - (-1)).toNat) (-1)
      rfl,
    if_pos ⟨h0, h1⟩]

/-- Quads in the plane `x[d] = t` covering cell `c` are counted by the
nonzero-ness of the slab mask entry. -/
theorem mesh_quads_countP (blocks : Nat → BlockId)
    (nb : Fin 6 → Option (Nat → BlockId)) (d : Fin 3) (t : Int) (c : Nat)
    (h0 : -1 < t) (h1 : t ≤ (CHUNK_SIZE : Int))
    (hc : c < CHUNK_SIZE * CHUNK_SIZE) :
    (mesh_quads blocks nb).countP (fun q => face_covers q d t c)
      = if slab_mask blocks nb d (t - 1) c ≠ 0 then 1 else 0 := by
  rw [mesh_quads, List.flatMap_cons, List.flatMap_cons, List.flatMap_cons,
    List.flatMap_nil, List.append_nil, List.countP_append, List.countP_append,
    ← slab_rects_count blocks nb d (t - 1) c hc]
  have hd3 : d = 0 ∨ d = 1 ∨ d = 2 := by
    fin_cases d <;> simp
  rcases hd3 with rfl | rfl | rfl
  · rw [axis_countP_eq blocks nb 0 t c h0 h1, axis_countP_ne blocks nb 1 0 t c
      (by decide), axis_countP_ne blocks nb 2 0 t c (by decide)]
    omega
  · rw [axis_countP_ne blocks nb 0 1 t c (by decide),
      axis_countP_eq blocks nb 1 t c h0 h1,
      axis_countP_ne blocks nb 2 1 t c (by decide)]
    omega
  · rw [axis_countP_ne blocks nb 0 2 t c (by decide),
      axis_countP_ne blocks nb 1 2 t c (by decide),
      axis_countP_eq blocks nb 2 t c h0 h1]
    omega

theorem slab_entries_mem (blocks : Nat → BlockId)
    (nb : Fin 6 → Option (Nat → BlockId)) (d : Fin 3) :
    ∀ (fuel : Nat) (xd : Int), ((CHUNK_SIZE : Int) - xd).toNat = fuel →
      ∀ e ∈ slab_entries blocks nb d xd,
        xd < e.1 ∧ e.1 ≤ (CHUNK_SIZE : Int) ∧
          e.2 = slab_rects blocks nb d (e.1 - 1) := by
  intro fuel
  induction fuel using Nat.strong_induction_on with
  | _ fuel ih =>
    intro xd hf e he
    by_cases hxd : xd < (CHUNK_SIZE : Int)
    · rw [slab_entries, dif_pos hxd] at he
      rcases List.mem_cons.mp he with rfl | htail
      · refine ⟨by omega, by omega, ?_⟩
        show slab_rects blocks nb d xd = slab_rects blocks nb d (xd + 1 - 1)
        rw [show (xd + 1 - 1 : Int) = xd from by ring]
      · obtain ⟨h1, h2, h3⟩ := ih ((CHUNK_SIZE - (xd + 1)).toNat)
          (by simp only [CHUNK_SIZE] at *; omega) (xd + 1) rfl e htail
        exact ⟨by omega, h2, h3⟩
    · rw [slab_entries, dif_neg hxd] at he
      exact absurd he (List.not_mem_nil e)

/-- Every emitted quad lies in a plane `0 ≤ t ≤ CHUNK_SIZE` of its axis and
is one of that slab's greedy rectangles. -/
theorem mesh_quads_mem (blocks : Nat → BlockId)
    (nb : Fin 6 → Option (Nat → BlockId)) (q : Fin 3 × Int × GreedyRect)
    (hq : q ∈ mesh_quads blocks nb) :
    0 ≤ q.2.1 ∧ q.2.1 ≤ (CHUNK_SIZE : Int) ∧
      q.2.2 ∈ slab_rects blocks nb q.1 (q.2.1 - 1) := by
  simp only [mesh_quads, List.mem_flatMap, List.mem_map] at hq
  obtain ⟨da, hda, s, hs, r, hr, rfl⟩ := hq
  rw [axis_slabs_eq blocks nb da (((CHUNK_SIZE : Int) - (-1)).toNat) (-1)
    (fun _ => 0) rfl (fun _ _ => rfl)] at hs
  obtain ⟨h1, h2, h3⟩ := slab_entries_mem blocks nb da
    (((CHUNK_SIZE : Int) - (-1)).toNat) (-1) rfl s hs
  rw [h3] at hr
  refine ⟨?_, ?_, ?_⟩
  · show (0 : Int) ≤ s.1
    omega
  · show s.1 ≤ (CHUNK_SIZE : Int)
    exact h2
  · show r ∈ slab_rects blocks nb da (s.1 - 1)
    exact hr

/-- Componentwise difference of 3-vectors. -/
def sub3 (a b : Int × Int × Int) : Int × Int × Int :=
  (a.1 - b.1, a.2.1 - b.2.1, a.2.2 - b.2.2)

/-- Cross product of 3-vectors (right-handed coordinates). -/
def cross3 (a b : Int × Int × Int) : Int × Int × Int :=
  (a.2.1 * b.2.2 - a.2.2 * b.2.1,
   a.2.2 * b.1 - a.1 * b.2.2,
   a.1 * b.2.1 - a.2.1 * b.1)

/-- Scalar multiple of a 3-vector. -/
def smul3 (k : Int) (a : Int × Int × Int) : Int × Int × Int :=
  (k * a.1, k * a.2.1, k * a.2.2)

/-- The normal of the triangle `(a, b, c)` on the side from which its
vertices appear in clockwise order.  Under the render pipeline's
conventions (pipeline.rs: `front_face = CLOCKWISE`, `cull_mode = BACK`)
this is the visible — outward — side of the triangle. -/
def tri_normal_cw (a b c : Int × Int × Int) : Int × Int × Int :=
  cross3 (sub3 c a) (sub3 b a)

theorem tri_normal_cw_apply (T :
    (Int × Int × Int) × (Int × Int × Int) × (Int × Int × Int)) :
    tri_normal_cw T.1 T.2.1 T.2.2 = cross3 (sub3 T.2.2 T.1) (sub3 T.2.1 T.1) :=
  rfl

/-- The two triangles appended by `append_quad` (chunk_mesh.rs lines
102-117), in emission order, as corner-point triples. -/
def quad_tris (p0 p1 p2 p3 : Int × Int × Int) (dir : Nat) :
    ((Int × Int × Int) × (Int × Int × Int) × (Int × Int × Int)) ×
      ((Int × Int × Int) × (Int × Int × Int) × (Int × Int × Int)) :=
  if dir % 2 = 0 then ((p0, p2, p1), (p1, p2, p3))
  else ((p0, p1, p2), (p1, p3, p2))

/-- Packing one corner point with a face's light modifier, as `append_quad`
does. -/
def quad_vert (p : Int × Int × Int) (dir : Nat) : Vertex :=
  build_vert (p.1.toNat, p.2.1.toNat, p.2.2.toNat) (LIGHT_MODIFIERS dir)

/-- `append_quad` appends exactly the two `quad_tris` triangles, vertex by
vertex. -/
theorem append_quad_eq_tris (buff : List Vertex) (p0 p1 p2 p3 : Int × Int × Int)
    (dir : Nat) :
    append_quad buff p0 p1 p2 p3 dir =
      buff ++ [quad_vert (quad_tris p0 p1 p2 p3 dir).1.1 dir,
        quad_vert (quad_tris p0 p1 p2 p3 dir).1.2.1 dir,
        quad_vert (quad_tris p0 p1 p2 p3 dir).1.2.2 dir,
        quad_vert (quad_tris p0 p1 p2 p3 dir).2.1 dir,
        quad_vert (quad_tris p0 p1 p2 p3 dir).2.2.1 dir,
        quad_vert (quad_tris p0 p1 p2 p3 dir).2.2.2 dir] := by
  by_cases hd : dir % 2 = 0 <;>
    simp [append_quad, quad_tris, quad_vert, hd]

/-- The sign of the outward face direction selected by the mask value:
`1` emits a face looking towards `+d`, `2` towards `-d`. -/
def out_sign (val : Nat) : Int :=
  if val = 1 then 1 else -1

/-- The two triangles emitted for one greedy rectangle, with the direction
index `d * 2 + mask_val - 1` computed as in `mesh` (chunk_mesh.rs lines
190-210). -/
def quad_emit (d : Fin 3) (t : Int) (r : GreedyRect) :
    ((Int × Int × Int) × (Int × Int × Int) × (Int × Int × Int)) ×
      ((Int × Int × Int) × (Int × Int × Int) × (Int × Int × Int)) :=
  quad_tris (quad_points d t r).1 (quad_points d t r).2.1
    (quad_points d t r).2.2.1 (quad_points d t r).2.2.2 (d.val * 2 + r.val - 1)

/-- The clockwise-side normal of a triangle given as a triple. -/
def tri_normal_of
    (T : (Int × Int × Int) × (Int × Int × Int) × (Int × Int × Int)) :
    Int × Int × Int :=
  tri_normal_cw T.1 T.2.1 T.2.2

/-- Both emitted triangles have their clockwise (outward) normal along
`out_sign val * e_d`, scaled by the rectangle area. -/
theorem quad_normals (d : Fin 3) (t : Int) (r : GreedyRect)
    (hval : r.val = 1 ∨ r.val = 2) :
    tri_normal_of (quad_emit d t r).1
        = smul3 (out_sign r.val * ((r.w : Int) * (r.h : Int))) (place d 1 0 0) ∧
      tri_normal_of (quad_emit d t r).2
        = smul3 (out_sign r.val * ((r.w : Int) * (r.h : Int))) (place d 1 0 0) := by
  have hd3 : d = 0 ∨ d = 1 ∨ d = 2 := by
    fin_cases d <;> simp
  obtain ⟨i, j, w, h, val⟩ := r
  simp only at hval
  rcases hval with rfl | rfl <;> rcases hd3 with rfl | rfl | rfl <;>
    · constructor <;>
      · simp only [quad_emit, quad_points, quad_tris, tri_normal_of,
          tri_normal_cw, cross3, sub3, smul3, out_sign, place]
        norm_num [Prod.ext_iff]
        all_goals (push_cast; ring)

/-- C3: for every blocks array and every choice of the six optional
neighbour chunks, the greedy mesher (`mesh` of chunk_mesh.rs, whose
`append_quad` calls are enumerated by `mesh_quads`) emits no quad for a
face whose two sides agree in solidity, and exactly one quad for a face
whose sides differ; moreover every emitted quad carries mask value 1 or 2,
on every face it covers the solid side is the one selected by that value
(value 1: solid at `x[d] = t - 1`, value 2: solid at `x[d] = t`), and the
two triangles of the quad are wound so that their clockwise-side (outward,
under the pipeline's `front_face = CLOCKWISE`, `cull_mode = BACK`
convention) normals point along `+e_d` for value 1 and `-e_d` for value 2,
scaled by the quad's area. -/
theorem greedy_mesher_face_correct (blocks : Nat → BlockId)
    (nb : Fin 6 → Option (Nat → BlockId)) (d : Fin 3)
    (t : Fin (CHUNK_SIZE + 1)) (u v : Fin CHUNK_SIZE) :
    ((mesh_quads blocks nb).countP
        (fun q => face_covers q d ((t : Nat) : Int)
          ((v : Nat) * CHUNK_SIZE + (u : Nat)))
      = if side_exist blocks nb d (((t : Nat) : Int) - 1) u v
            ≠ side_exist blocks nb d ((t : Nat) : Int) u v then 1 else 0) ∧
    ∀ q ∈ mesh_quads blocks nb,
      (q.2.2.val = 1 ∨ q.2.2.val = 2) ∧
      (∀ c, c < CHUNK_SIZE * CHUNK_SIZE → rect_covers q.2.2 c = true →
        side_exist blocks nb q.1 (q.2.1 - 1) (c % CHUNK_SIZE) (c / CHUNK_SIZE)
            = decide (q.2.2.val = 1) ∧
          side_exist blocks nb q.1 q.2.1 (c % CHUNK_SIZE) (c / CHUNK_SIZE)
            = decide (q.2.2.val = 2)) ∧
      tri_normal_of (quad_emit q.1 q.2.1 q.2.2).1
          = smul3 (out_sign q.2.2.val * ((q.2.2.w : Int) * (q.2.2.h : Int)))
            (place q.1 1 0 0) ∧
      tri_normal_of (quad_emit q.1 q.2.1 q.2.2).2
          = smul3 (out_sign q.2.2.val * ((q.2.2.w : Int) * (q.2.2.h : Int)))
            (place q.1 1 0 0) := by
  have hCpos : 0 < CHUNK_SIZE := by
    simp [CHUNK_SIZE]
  constructor
  · have hut := u.isLt
    have hvt := v.isLt
    have htt := t.isLt
    have hc : (v : Nat) * CHUNK_SIZE + (u : Nat) < CHUNK_SIZE * CHUNK_SIZE := by
      simp only [CHUNK_SIZE] at hut hvt ⊢
      omega
    rw [mesh_quads_countP blocks nb d ((t : Nat) : Int)
      ((v : Nat) * CHUNK_SIZE + (u : Nat)) (by omega) (by omega) hc]
    have hmu : ((v : Nat) * CHUNK_SIZE + (u : Nat)) % CHUNK_SIZE = (u : Nat) := by
      simp only [CHUNK_SIZE] at hut ⊢
      omega
    have hmv : ((v : Nat) * CHUNK_SIZE + (u : Nat)) / CHUNK_SIZE = (v : Nat) := by
      simp only [CHUNK_SIZE] at hut ⊢
      omega
    have hme := mask_entry_char blocks nb d (((t : Nat) : Int) - 1) u v
      u.isLt v.isLt
    rw [show ((t : Nat) : Int) - 1 + 1 = ((t : Nat) : Int) from by ring] at hme
    simp only [slab_mask, hc, if_true, hmu, hmv, hme]
    by_cases hside : side_exist blocks nb d (((t : Nat) : Int) - 1) u v
        ≠ side_exist blocks nb d ((t : Nat) : Int) u v
    · rw [if_pos ((face_val_ne_zero _ _).mpr hside), if_pos hside]
    · rw [if_neg (fun hcon => hside ((face_val_ne_zero _ _).mp hcon)),
        if_neg hside]
  · intro q hq
    obtain ⟨hq0, hq1, hqr⟩ := mesh_quads_mem blocks nb q hq
    obtain ⟨hw, hh, hiw, hjh, hvne, huni⟩ :=
      slab_rects_wf blocks nb q.1 (q.2.1 - 1) q.2.2 hqr
    have hc0 : q.2.2.j * CHUNK_SIZE + q.2.2.i < CHUNK_SIZE * CHUNK_SIZE := by
      simp only [CHUNK_SIZE] at hiw hjh hw hh ⊢
      omega
    have hcov : rect_covers q.2.2 (q.2.2.j * CHUNK_SIZE + q.2.2.i) = true := by
      simp only [rect_covers, Bool.and_eq_true, decide_eq_true_eq]
      simp only [CHUNK_SIZE] at hiw hjh hw hh ⊢
      omega
    have hval0 := huni (q.2.2.j * CHUNK_SIZE + q.2.2.i) hc0 hcov
    have hfv : ∀ c, c < CHUNK_SIZE * CHUNK_SIZE → rect_covers q.2.2 c = true →
        q.2.2.val = face_val
          (side_exist blocks nb q.1 (q.2.1 - 1) (c % CHUNK_SIZE) (c / CHUNK_SIZE))
          (side_exist blocks nb q.1 q.2.1 (c % CHUNK_SIZE) (c / CHUNK_SIZE)) := by
      intro c hcc hrc
      have hcu : c % CHUNK_SIZE < CHUNK_SIZE := Nat.mod_lt _ hCpos
      have hcv : c / CHUNK_SIZE < CHUNK_SIZE := by
        simp only [CHUNK_SIZE] at hcc ⊢
        omega
      have := huni c hcc hrc
      rw [slab_mask, if_pos hcc,
        mask_entry_char blocks nb q.1 (q.2.1 - 1) _ _ hcu hcv,
        show (q.2.1 - 1 + 1 : Int) = q.2.1 from by ring] at this
      exact this.symm
    have hval12 : q.2.2.val = 1 ∨ q.2.2.val = 2 := by
      have h12 := hfv (q.2.2.j * CHUNK_SIZE + q.2.2.i) hc0 hcov
      rcases face_val_cases
          (side_exist blocks nb q.1 (q.2.1 - 1)
            ((q.2.2.j * CHUNK_SIZE + q.2.2.i) % CHUNK_SIZE)
            ((q.2.2.j * CHUNK_SIZE + q.2.2.i) / CHUNK_SIZE))
          (side_exist blocks nb q.1 q.2.1
            ((q.2.2.j * CHUNK_SIZE + q.2.2.i) % CHUNK_SIZE)
            ((q.2.2.j * CHUNK_SIZE + q.2.2.i) / CHUNK_SIZE)) with h | h | h
      · exact absurd (h12.trans h) hvne
      · exact Or.inl (h12.trans h)
      · exact Or.inr (h12.trans h)
    refine ⟨hval12, ?_, (quad_normals q.1 q.2.1 q.2.2 hval12).1,
      (quad_normals q.1 q.2.1 q.2.2 hval12).2⟩
    intro c hcc hrc
    have hfvc := hfv c hcc hrc
    rcases hval12 with h1 | h2
    · rw [h1] at hfvc
      obtain ⟨ha, hb⟩ := face_val_eq_one hfvc.symm
      rw [ha, hb, h1]
      simp
    · rw [h2] at hfvc
      obtain ⟨ha, hb⟩ := face_val_eq_two hfvc.symm
      rw [ha, hb, h2]
      simp

theorem append_quad_length (buff : List Vertex) (p0 p1 p2 p3 : Int × Int × Int)
    (dir : Nat) :
    (append_quad buff p0 p1 p2 p3 dir).length = buff.length + 6 := by
  by_cases hd : dir % 2 = 0 <;> simp [append_quad, hd]

theorem foldl_length_of_step {α : Type} (f : List Vertex → α → List Vertex)
    (hf : ∀ b a, (f b a).length = b.length + 6) :
    ∀ (l : List α) (b : List Vertex),
      (l.foldl f b).length = b.length + 6 * l.length := by
  intro l
  induction l with
  | nil =>
    intro b
    simp
  | cons a l ih =>
    intro b
    rw [List.foldl_cons, ih, hf, List.length_cons]
    ring

/-- `mesh` writes exactly 6 vertices per `append_quad` call. -/
theorem mesh_length (blocks : Nat → BlockId)
    (nb : Fin 6 → Option (Nat → BlockId)) :
    (mesh blocks nb).length = 6 * (mesh_quads blocks nb).length := by
  rw [mesh, foldl_length_of_step _
    (fun b q => append_quad_length b (quad_points q.1 q.2.1 q.2.2).1
      (quad_points q.1 q.2.1 q.2.2).2.1 (quad_points q.1 q.2.1 q.2.2).2.2.1
      (quad_points q.1 q.2.1 q.2.2).2.2.2 (q.1.val * 2 + q.2.2.val - 1))
    (mesh_quads blocks nb) []]
  simp

theorem sum_countP_covers (rs : List GreedyRect) (N : Nat) :
    ∑ c ∈ Finset.range N, rs.countP (fun r => rect_covers r c)
      = (rs.map (fun r => ∑ c ∈ Finset.range N,
          (if rect_covers r c then 1 else 0))).sum := by
  induction rs with
  | nil => simp
  | cons r rs ih =>
    rw [List.map_cons, List.sum_cons, ← ih, ← Finset.sum_add_distrib]
    refine Finset.sum_congr rfl (fun c _ => ?_)
    rw [List.countP_cons]
    ring

theorem rect_cover_sum_one (r : GreedyRect) (hw : r.w = 1) (hh : r.h = 1)
    (hiw : r.i + r.w ≤ CHUNK_SIZE) (hjh : r.j + r.h ≤ CHUNK_SIZE) :
    ∑ c ∈ Finset.range (CHUNK_SIZE * CHUNK_SIZE),
        (if rect_covers r c then (1 : Nat) else 0) = 1 := by
  obtain ⟨i, j, w, h, val⟩ := r
  simp only at hw hh hiw hjh
  subst hw hh
  have hpoint : ∀ c ∈ Finset.range (CHUNK_SIZE * CHUNK_SIZE),
      (if rect_covers ⟨i, j, 1, 1, val⟩ c then (1 : Nat) else 0)
        = if c = j * CHUNK_SIZE + i then 1 else 0 := by
    intro c hc
    rw [Finset.mem_range] at hc
    refine if_congr ?_ rfl rfl
    simp only [rect_covers, Bool.and_eq_true, decide_eq_true_eq]
    simp only [CHUNK_SIZE] at hc hiw hjh ⊢
    omega
  rw [Finset.sum_congr rfl hpoint,
    Finset.sum_ite_eq' (Finset.range (CHUNK_SIZE * CHUNK_SIZE))
      (j * CHUNK_SIZE + i) (fun _ => 1),
    if_pos (Finset.mem_range.mpr (by simp only [CHUNK_SIZE] at hiw hjh ⊢; omega))]

theorem rect_cover_sum_ge_one (r : GreedyRect) (hw : 1 ≤ r.w) (hh : 1 ≤ r.h)
    (hiw : r.i + r.w ≤ CHUNK_SIZE) (hjh : r.j + r.h ≤ CHUNK_SIZE) :
    1 ≤ ∑ c ∈ Finset.range (CHUNK_SIZE * CHUNK_SIZE),
        (if rect_covers r c then (1 : Nat) else 0) := by
  have hmem : r.j * CHUNK_SIZE + r.i ∈ Finset.range (CHUNK_SIZE * CHUNK_SIZE) := by
    refine Finset.mem_range.mpr ?_
    simp only [CHUNK_SIZE] at hiw hjh ⊢
    omega
  have hcov : rect_covers r (r.j * CHUNK_SIZE + r.i) = true := by
    simp only [rect_covers, Bool.and_eq_true, decide_eq_true_eq]
    simp only [CHUNK_SIZE] at hiw hjh ⊢
    omega
  have := Finset.single_le_sum
    (f := fun c => if rect_covers r c then (1 : Nat) else 0)
    (fun c _ => Nat.zero_le _) hmem
  simp only [if_pos hcov] at this
  simpa using this

/-- The number of rectangles emitted for one slab is at most the number of
nonzero mask entries. -/
theorem slab_rects_len_le (blocks : Nat → BlockId)
    (nb : Fin 6 → Option (Nat → BlockId)) (d : Fin 3) (s : Int) :
    (slab_rects blocks nb d s).length
      ≤ ∑ c ∈ Finset.range (CHUNK_SIZE * CHUNK_SIZE),
          (if slab_mask blocks nb d s c ≠ 0 then (1 : Nat) else 0) := by
  have h1 : ((slab_rects blocks nb d s).map (fun _ => (1 : Nat))).sum
      ≤ ((slab_rects blocks nb d s).map (fun r =>
        ∑ c ∈ Finset.range (CHUNK_SIZE * CHUNK_SIZE),
          (if rect_covers r c then (1 : Nat) else 0))).sum := by
    refine List.sum_le_sum (fun r hr => ?_)
    obtain ⟨hw, hh, hiw, hjh, -, -⟩ := slab_rects_wf blocks nb d s r hr
    exact rect_cover_sum_ge_one r hw hh hiw hjh
  have h2 : ((slab_rects blocks nb d s).map (fun _ => (1 : Nat))).sum
      = (slab_rects blocks nb d s).length := by
    simp
  have h3 : ((slab_rects blocks nb d s).map (fun r =>
      ∑ c ∈ Finset.range (CHUNK_SIZE * CHUNK_SIZE),
        (if rect_covers r c then (1 : Nat) else 0))).sum
      = ∑ c ∈ Finset.range (CHUNK_SIZE * CHUNK_SIZE),
          (if slab_mask blocks nb d s c ≠ 0 then (1 : Nat) else 0) := by
    rw [← sum_countP_covers]
    exact Finset.sum_congr rfl (fun c hc =>
      slab_rects_count blocks nb d s c (Finset.mem_range.mp hc))
  rw [← h2, ← h3]
  exact h1

theorem changes_parity (b : Nat → Bool) :
    ∀ N, (∑ k ∈ Finset.range N, (if b k ≠ b (k + 1) then (1 : Nat) else 0)) % 2
      = (if b 0 ≠ b N then (1 : Nat) else 0) % 2 := by
  intro N
  induction N with
  | zero => simp
  | succ N ih =>
    rw [Finset.sum_range_succ]
    by_cases h1 : b 0 = b N <;> by_cases h2 : b N = b (N + 1)
    · rw [if_neg (fun hc => hc h2), if_neg (fun hc => hc (h1.trans h2))]
      rw [if_neg (fun hc => hc h1)] at ih
      omega
    · rw [if_pos h2, if_pos (fun hc => h2 (h1.symm.trans hc))]
      rw [if_neg (fun hc => hc h1)] at ih
      omega
    · rw [if_neg (fun hc => hc h2), if_pos (fun hc => h1 (hc.trans h2.symm))]
      rw [if_pos h1] at ih
      omega
    · have h02 : b 0 = b (N + 1) := by
        rcases Bool.eq_false_or_eq_true (b 0) with h | h <;>
          rcases Bool.eq_false_or_eq_true (b N) with h' | h' <;>
            rcases Bool.eq_false_or_eq_true (b (N + 1)) with h'' | h'' <;>
              simp_all
      rw [if_pos h2, if_neg (fun hc : b 0 ≠ b (N + 1) => hc h02)]
      rw [if_pos (show b 0 ≠ b N from h1)] at ih
      omega

theorem changes_le_32 (b : Nat → Bool) (h0 : b 0 = false)
    (h33 : b 33 = false) :
    (∑ k ∈ Finset.range 33, (if b k ≠ b (k + 1) then (1 : Nat) else 0)) ≤ 32 := by
  have hp := changes_parity b 33
  rw [h0, h33, if_neg (fun hc => hc rfl)] at hp
  have hle : (∑ k ∈ Finset.range 33,
      (if b k ≠ b (k + 1) then (1 : Nat) else 0)) ≤ 33 := by
    calc (∑ k ∈ Finset.range 33, (if b k ≠ b (k + 1) then (1 : Nat) else 0))
        ≤ ∑ _k ∈ Finset.range 33, 1 :=
          Finset.sum_le_sum (fun k _ => by split <;> omega)
      _ = 33 := by simp
  omega

/-- How many mask cells of the slab at `x[d] = s` are nonzero. -/
def mask_nonzero_count (blocks : Nat → BlockId)
    (nb : Fin 6 → Option (Nat → BlockId)) (d : Fin 3) (s : Int) : Nat :=
  ∑ c ∈ Finset.range (CHUNK_SIZE * CHUNK_SIZE),
    (if slab_mask blocks nb d s c ≠ 0 then 1 else 0)

theorem slab_entries_len_le (blocks : Nat → BlockId)
    (nb : Fin 6 → Option (Nat → BlockId)) (d : Fin 3) :
    ∀ (fuel : Nat) (xd : Int), ((CHUNK_SIZE : Int) - xd).toNat = fuel →
      ((slab_entries blocks nb d xd).map (fun e => e.2.length)).sum
        ≤ ∑ k ∈ Finset.range fuel, mask_nonzero_count blocks nb d (xd + k) := by
  intro fuel
  induction fuel using Nat.strong_induction_on with
  | _ fuel ih =>
    intro xd hf
    by_cases hxd : xd < (CHUNK_SIZE : Int)
    · rw [slab_entries, dif_pos hxd, List.map_cons, List.sum_cons]
      have hn : fuel = ((CHUNK_SIZE : Int) - (xd + 1)).toNat + 1 := by
        simp only [CHUNK_SIZE] at *
        omega
      have harg : ∀ k : Nat,
          mask_nonzero_count blocks nb d (xd + ((k + 1 : Nat) : Int))
            = mask_nonzero_count blocks nb d (xd + 1 + (k : Int)) := by
        intro k
        rw [show xd + ((k + 1 : Nat) : Int) = xd + 1 + (k : Int) from by
          push_cast; ring]
      have hsplit : ∑ k ∈ Finset.range fuel,
          mask_nonzero_count blocks nb d (xd + k)
          = mask_nonzero_count blocks nb d xd
            + ∑ k ∈ Finset.range (((CHUNK_SIZE : Int) - (xd + 1)).toNat),
              mask_nonzero_count blocks nb d (xd + 1 + k) := by
        rw [hn, Finset.sum_range_succ']
        simp only [Nat.cast_zero, add_zero]
        rw [Finset.sum_congr rfl (fun k _ => harg k)]
        ring
      rw [hsplit]
      refine Nat.add_le_add ?_ ?_
      · exact slab_rects_len_le blocks nb d xd
      · exact ih (((CHUNK_SIZE : Int) - (xd + 1)).toNat) (by omega) (xd + 1) rfl
    · rw [slab_entries, dif_neg hxd]
      simp

/-- With no neighbours, each cross-column `(u, v)` of an axis sees a
boolean solidity profile that is `false` beyond both chunk ends, so it
changes at most 32 times across the 33 slab boundaries. -/
theorem axis_mask_sum_le (blocks : Nat → BlockId) (d : Fin 3) :
    ∑ k ∈ Finset.range 33,
        mask_nonzero_count blocks (fun _ => none) d (-1 + (k : Int))
      ≤ 32768 := by
  have hswap : ∑ k ∈ Finset.range 33,
      mask_nonzero_count blocks (fun _ => none) d (-1 + (k : Int))
      = ∑ c ∈ Finset.range (CHUNK_SIZE * CHUNK_SIZE), ∑ k ∈ Finset.range 33,
          (if slab_mask blocks (fun _ => none) d (-1 + (k : Int)) c ≠ 0
            then 1 else 0) := by
    simp only [mask_nonzero_count]
    exact Finset.sum_comm
  rw [hswap]
  have hcol : ∀ c ∈ Finset.range (CHUNK_SIZE * CHUNK_SIZE),
      (∑ k ∈ Finset.range 33,
        (if slab_mask blocks (fun _ => none) d (-1 + (k : Int)) c ≠ 0
          then (1 : Nat) else 0)) ≤ 32 := by
    intro c hc
    rw [Finset.mem_range] at hc
    have hCpos : 0 < CHUNK_SIZE := by simp [CHUNK_SIZE]
    have hcu : c % CHUNK_SIZE < CHUNK_SIZE := Nat.mod_lt _ hCpos
    have hcv : c / CHUNK_SIZE < CHUNK_SIZE := by
      simp only [CHUNK_SIZE] at hc ⊢
      omega
    have hcongr : ∀ k ∈ Finset.range 33,
        (if slab_mask blocks (fun _ => none) d (-1 + (k : Int)) c ≠ 0
          then (1 : Nat) else 0)
        = if side_exist blocks (fun _ => none) d (-1 + (k : Int))
              (c % CHUNK_SIZE) (c / CHUNK_SIZE)
            ≠ side_exist blocks (fun _ => none) d (-1 + ((k + 1 : Nat) : Int))
              (c % CHUNK_SIZE) (c / CHUNK_SIZE) then 1 else 0 := by
      intro k _
      refine if_congr ?_ rfl rfl
      rw [slab_mask, if_pos hc,
        mask_entry_char blocks (fun _ => none) d (-1 + (k : Int)) _ _ hcu hcv,
        show (-1 + (k : Int) + 1) = -1 + ((k + 1 : Nat) : Int) from by
          push_cast; ring]
      exact face_val_ne_zero _ _
    rw [Finset.sum_congr rfl hcongr]
    refine changes_le_32
      (fun k => side_exist blocks (fun _ => none) d (-1 + (k : Int))
        (c % CHUNK_SIZE) (c / CHUNK_SIZE)) ?_ ?_
    · show side_exist blocks (fun _ => none) d (-1 + ((0 : Nat) : Int)) _ _ = false
      rw [show (-1 + ((0 : Nat) : Int)) = -1 from by norm_num]
      exact side_exist_none blocks d (-1) _ _ (Or.inl (by omega))
    · show side_exist blocks (fun _ => none) d (-1 + ((33 : Nat) : Int)) _ _ = false
      rw [show (-1 + ((33 : Nat) : Int)) = 32 from by norm_num]
      exact side_exist_none blocks d 32 _ _ (Or.inr (by simp [CHUNK_SIZE]))
  calc ∑ c ∈ Finset.range (CHUNK_SIZE * CHUNK_SIZE), ∑ k ∈ Finset.range 33,
        (if slab_mask blocks (fun _ => none) d (-1 + (k : Int)) c ≠ 0
          then (1 : Nat) else 0)
      ≤ ∑ _c ∈ Finset.range (CHUNK_SIZE * CHUNK_SIZE), 32 :=
        Finset.sum_le_sum hcol
    _ = 32768 := by
        simp [CHUNK_SIZE]

theorem axis_quads_len_le (blocks : Nat → BlockId) (da : Fin 3) :
    ((axis_slabs blocks (fun _ => none) da (-1) (fun _ => 0)).flatMap
      (fun s => s.2.map (fun r => (da, s.1, r)))).length ≤ 32768 := by
  rw [axis_slabs_eq blocks (fun _ => none) da
      (((CHUNK_SIZE : Int) - (-1)).toNat) (-1) (fun _ => 0) rfl (fun _ _ => rfl),
    List.length_flatMap]
  have hmap : List.map (List.length ∘
      (fun s : Int × List GreedyRect => s.2.map (fun r => (da, s.1, r))))
      (slab_entries blocks (fun _ => none) da (-1))
      = (slab_entries blocks (fun _ => none) da (-1)).map
          (fun e => e.2.length) := by
    refine List.map_congr_left (fun e _ => ?_)
    simp [Function.comp]
  rw [hmap]
  have hb := slab_entries_len_le blocks (fun _ => none) da
    (((CHUNK_SIZE : Int) - (-1)).toNat) (-1) rfl
  have hfe : (((CHUNK_SIZE : Int) - (-1)).toNat) = 33 := by
    simp [CHUNK_SIZE]
  rw [hfe] at hb
  exact le_trans hb (axis_mask_sum_le blocks da)

/-- C8 (amended): with no neighbour chunks generated, the greedy mesher
emits at most `MAX_VERTICES_PER_CHUNK` vertices, so every write into the
caller's buffer of that size stays in bounds. -/
theorem greedy_mesher_vertex_bound (blocks : Nat → BlockId) :
    (mesh blocks (fun _ => none)).length ≤ MAX_VERTICES_PER_CHUNK := by
  rw [mesh_length, mesh_quads]
  simp only [List.flatMap_cons, List.flatMap_nil, List.append_nil,
    List.length_append]
  have h0 := axis_quads_len_le blocks 0
  have h1 := axis_quads_len_le blocks 1
  have h2 := axis_quads_len_le blocks 2
  simp only [MAX_VERTICES_PER_CHUNK, BLOCKS_PER_CHUNK, CHUNK_SIZE] at *
  omega

/-- The 3D-checkerboard block array: the cell with local coordinates
`(x, y, z)` (recovered from the linear index) is solid iff `x + y + z` is
odd. -/
def parityBlocks : Nat → BlockId := fun idx =>
  if (idx / (CHUNK_SIZE * CHUNK_SIZE) + idx / CHUNK_SIZE % CHUNK_SIZE
      + idx % CHUNK_SIZE) % 2 = 1
  then BlockId.Block else BlockId.Air

/-- All six neighbours generated, each a checkerboard continuing the
centre chunk's pattern (CHUNK_SIZE is even, so the same array works for
every neighbour). -/
def parityNb : Fin 6 → Option (Nat → BlockId) := fun _ => some parityBlocks

theorem parityBlocks_solid (x y z : Nat) (hx : x < CHUNK_SIZE)
    (hy : y < CHUNK_SIZE) (hz : z < CHUNK_SIZE) :
    (parityBlocks (LocalBlockPos.to_index ⟨x, y, z⟩) != BlockId.Air)
      = decide ((x + y + z) % 2 = 1) := by
  have hidx : LocalBlockPos.to_index ⟨x, y, z⟩
      = x * (CHUNK_SIZE * CHUNK_SIZE) + y * CHUNK_SIZE + z := by
    simp only [LocalBlockPos.to_index]
    ring
  have h1 : (x * (CHUNK_SIZE * CHUNK_SIZE) + y * CHUNK_SIZE + z)
      / (CHUNK_SIZE * CHUNK_SIZE) = x := by
    simp only [CHUNK_SIZE] at *
    omega
  have h2 : (x * (CHUNK_SIZE * CHUNK_SIZE) + y * CHUNK_SIZE + z)
      / CHUNK_SIZE % CHUNK_SIZE = y := by
    simp only [CHUNK_SIZE] at *
    omega
  have h3 : (x * (CHUNK_SIZE * CHUNK_SIZE) + y * CHUNK_SIZE + z)
      % CHUNK_SIZE = z := by
    simp only [CHUNK_SIZE] at *
    omega
  simp only [parityBlocks, hidx, h1, h2, h3]
  by_cases hp : (x + y + z) % 2 = 1
  · rw [if_pos hp]
    simp [hp]
  · rw [if_neg hp]
    simp [hp]

/-- In the all-checkerboard world every side probe reads the parity of
`s + u + v`, including across both chunk boundaries of each axis. -/
theorem parity_side (d : Fin 3) (s : Int) (u v : Nat) (hu : u < CHUNK_SIZE)
    (hv : v < CHUNK_SIZE) (hs1 : -1 ≤ s) (hs2 : s ≤ (CHUNK_SIZE : Int)) :
    side_exist parityBlocks parityNb d s u v
      = decide ((s + u + v) % 2 = 1) := by
  rcases (by omega :
      s = -1 ∨ (0 ≤ s ∧ s < (CHUNK_SIZE : Int)) ∨ s = (CHUNK_SIZE : Int))
    with rfl | hin | rfl
  · fin_cases d
    · show block_exist_core parityBlocks parityNb (-1, (u : Int), (v : Int))
        (-1 + 0, (u : Int) + 0, (v : Int) + 0) = _
      rw [block_exist_core_none _ _ _ _
          (try_new_eq_none (-1 + 0) ((u : Int) + 0) ((v : Int) + 0) (by omega)),
        oob_probe_1 _ _ (show ¬ ((-1 + 0 : Int) ≥ (CHUNK_SIZE : Int)) by omega)
          (show (-1 + 0 : Int) < 0 by omega)]
      show (parityBlocks (LocalBlockPos.to_index ⟨CHUNK_SIZE - 1, u, v⟩)
          != BlockId.Air) = _
      rw [parityBlocks_solid (CHUNK_SIZE - 1) u v (by simp [CHUNK_SIZE]) hu hv]
      refine decide_eq_decide.mpr ?_
      simp only [CHUNK_SIZE]
      omega
    · show block_exist_core parityBlocks parityNb ((v : Int), -1, (u : Int))
        ((v : Int) + 0, -1 + 0, (u : Int) + 0) = _
      rw [block_exist_core_none _ _ _ _
          (try_new_eq_none ((v : Int) + 0) (-1 + 0) ((u : Int) + 0) (by omega)),
        oob_probe_3 _ _
          (show ¬ (((v : Int) + 0) ≥ (CHUNK_SIZE : Int)) by omega)
          (show ¬ (((v : Int) + 0) < 0) by omega)
          (show ¬ ((-1 + 0 : Int) ≥ (CHUNK_SIZE : Int)) by omega)
          (show (-1 + 0 : Int) < 0 by omega)]
      show (parityBlocks (LocalBlockPos.to_index ⟨v, CHUNK_SIZE - 1, u⟩)
          != BlockId.Air) = _
      rw [parityBlocks_solid v (CHUNK_SIZE - 1) u hv (by simp [CHUNK_SIZE]) hu]
      refine decide_eq_decide.mpr ?_
      simp only [CHUNK_SIZE]
      omega
    · show block_exist_core parityBlocks parityNb ((u : Int), (v : Int), -1)
        ((u : Int) + 0, (v : Int) + 0, -1 + 0) = _
      rw [block_exist_core_none _ _ _ _
          (try_new_eq_none ((u : Int) + 0) ((v : Int) + 0) (-1 + 0) (by omega)),
        oob_probe_5 _ _
          (show ¬ (((u : Int) + 0) ≥ (CHUNK_SIZE : Int)) by omega)
          (show ¬ (((u : Int) + 0) < 0) by omega)
          (show ¬ (((v : Int) + 0) ≥ (CHUNK_SIZE : Int)) by omega)
          (show ¬ (((v : Int) + 0) < 0) by omega)
          (show ¬ ((-1 + 0 : Int) ≥ (CHUNK_SIZE : Int)) by omega)]
      show (parityBlocks (LocalBlockPos.to_index ⟨u, v, CHUNK_SIZE - 1⟩)
          != BlockId.Air) = _
      rw [parityBlocks_solid u v (CHUNK_SIZE - 1) hu hv (by simp [CHUNK_SIZE])]
      refine decide_eq_decide.mpr ?_
      simp only [CHUNK_SIZE]
      omega
  · rw [side_exist_in parityBlocks parityNb d s u v hin.1 hin.2 hu hv]
    fin_cases d
    · show (parityBlocks (LocalBlockPos.to_index ⟨s.toNat, u, v⟩)
          != BlockId.Air) = _
      rw [parityBlocks_solid s.toNat u v (by omega) hu hv]
      refine decide_eq_decide.mpr ?_
      omega
    · show (parityBlocks (LocalBlockPos.to_index ⟨v, s.toNat, u⟩)
          != BlockId.Air) = _
      rw [parityBlocks_solid v s.toNat u hv (by omega) hu]
      refine decide_eq_decide.mpr ?_
      omega
    · show (parityBlocks (LocalBlockPos.to_index ⟨u, v, s.toNat⟩)
          != BlockId.Air) = _
      rw [parityBlocks_solid u v s.toNat hu hv (by omega)]
      refine decide_eq_decide.mpr ?_
      omega
  · fin_cases d
    · show block_exist_core parityBlocks parityNb
        (((CHUNK_SIZE : Nat) : Int), (u : Int), (v : Int))
        (((CHUNK_SIZE : Nat) : Int) + 0, (u : Int) + 0, (v : Int) + 0) = _
      rw [block_exist_core_none _ _ _ _
          (try_new_eq_none (((CHUNK_SIZE : Nat) : Int) + 0) ((u : Int) + 0)
            ((v : Int) + 0) (by omega)),
        oob_probe_0 _ _
          (show (((CHUNK_SIZE : Nat) : Int) + 0) ≥ (CHUNK_SIZE : Int) by omega)]
      show (parityBlocks (LocalBlockPos.to_index ⟨0, u, v⟩)
          != BlockId.Air) = _
      rw [parityBlocks_solid 0 u v (by simp [CHUNK_SIZE]) hu hv]
      refine decide_eq_decide.mpr ?_
      simp only [CHUNK_SIZE]
      omega
    · show block_exist_core parityBlocks parityNb
        ((v : Int), ((CHUNK_SIZE : Nat) : Int), (u : Int))
        ((v : Int) + 0, ((CHUNK_SIZE : Nat) : Int) + 0, (u : Int) + 0) = _
      rw [block_exist_core_none _ _ _ _
          (try_new_eq_none ((v : Int) + 0) (((CHUNK_SIZE : Nat) : Int) + 0)
            ((u : Int) + 0) (by omega)),
        oob_probe_2 _ _
          (show ¬ (((v : Int) + 0) ≥ (CHUNK_SIZE : Int)) by omega)
          (show ¬ (((v : Int) + 0) < 0) by omega)
          (show (((CHUNK_SIZE : Nat) : Int) + 0) ≥ (CHUNK_SIZE : Int) by omega)]
      show (parityBlocks (LocalBlockPos.to_index ⟨v, 0, u⟩)
          != BlockId.Air) = _
      rw [parityBlocks_solid v 0 u hv (by simp [CHUNK_SIZE]) hu]
      refine decide_eq_decide.mpr ?_
      simp only [CHUNK_SIZE]
      omega
    · show block_exist_core parityBlocks parityNb
        ((u : Int), (v : Int), ((CHUNK_SIZE : Nat) : Int))
        ((u : Int) + 0, (v : Int) + 0, ((CHUNK_SIZE : Nat) : Int) + 0) = _
      rw [block_exist_core_none _ _ _ _
          (try_new_eq_none ((u : Int) + 0) ((v : Int) + 0)
            (((CHUNK_SIZE : Nat) : Int) + 0) (by omega)),
        oob_probe_4 _ _
          (show ¬ (((u : Int) + 0) ≥ (CHUNK_SIZE : Int)) by omega)
          (show ¬ (((u : Int) + 0) < 0) by omega)
          (show ¬ (((v : Int) + 0) ≥ (CHUNK_SIZE : Int)) by omega)
          (show ¬ (((v : Int) + 0) < 0) by omega)
          (show (((CHUNK_SIZE : Nat) : Int) + 0) ≥ (CHUNK_SIZE : Int) by omega)]
      show (parityBlocks (LocalBlockPos.to_index ⟨u, v, 0⟩)
          != BlockId.Air) = _
      rw [parityBlocks_solid u v 0 hu hv (by simp [CHUNK_SIZE])]
      refine decide_eq_decide.mpr ?_
      simp only [CHUNK_SIZE]
      omega

theorem parity_mask_entry (d : Fin 3) (s : Int) (u v : Nat)
    (hu : u < CHUNK_SIZE) (hv : v < CHUNK_SIZE) (hs1 : -1 ≤ s)
    (hs2 : s < (CHUNK_SIZE : Int)) :
    mask_entry parityBlocks parityNb d s u v
      = if (s + u + v) % 2 = 1 then 1 else 2 := by
  rw [mask_entry_char parityBlocks parityNb d s u v hu hv,
    parity_side d s u v hu hv hs1 (by omega),
    parity_side d (s + 1) u v hu hv (by omega) (by omega)]
  by_cases hp : (s + u + v) % 2 = 1
  · have hq : ¬ ((s + 1 + u + v) % 2 = 1) := by omega
    rw [if_pos hp]
    simp [hp, hq, face_val]
  · have hq : (s + 1 + u + v) % 2 = 1 := by omega
    rw [if_neg hp]
    simp [hp, hq, face_val]

theorem parity_slab_mask (d : Fin 3) (s : Int) (hs1 : -1 ≤ s)
    (hs2 : s < (CHUNK_SIZE : Int)) (a b : Nat) (ha : a < CHUNK_SIZE)
    (hb : b < CHUNK_SIZE) :
    slab_mask parityBlocks parityNb d s (b * CHUNK_SIZE + a)
      = if (s + a + b) % 2 = 1 then 1 else 2 := by
  have hab : b * CHUNK_SIZE + a < CHUNK_SIZE * CHUNK_SIZE := by
    simp only [CHUNK_SIZE] at *
    omega
  rw [slab_mask, if_pos hab,
    show (b * CHUNK_SIZE + a) % CHUNK_SIZE = a from by
      simp only [CHUNK_SIZE] at *; omega,
    show (b * CHUNK_SIZE + a) / CHUNK_SIZE = b from by
      simp only [CHUNK_SIZE] at *; omega,
    parity_mask_entry d s a b ha hb hs1 hs2]

/-- In the checkerboard world adjacent mask entries always differ, so every
greedy rectangle is 1×1. -/
theorem parity_rects_small (d : Fin 3) (s : Int) (hs1 : -1 ≤ s)
    (hs2 : s < (CHUNK_SIZE : Int)) (r : GreedyRect)
    (hr : r ∈ slab_rects parityBlocks parityNb d s) :
    r.w = 1 ∧ r.h = 1 := by
  obtain ⟨hw, hh, hiw, hjh, hvne, huni⟩ :=
    slab_rects_wf parityBlocks parityNb d s r hr
  constructor
  · by_contra hne
    have hw2 : 2 ≤ r.w := by omega
    have hc0 : r.j * CHUNK_SIZE + r.i < CHUNK_SIZE * CHUNK_SIZE := by
      simp only [CHUNK_SIZE] at *
      omega
    have hc1 : r.j * CHUNK_SIZE + (r.i + 1) < CHUNK_SIZE * CHUNK_SIZE := by
      simp only [CHUNK_SIZE] at *
      omega
    have hcov0 : rect_covers r (r.j * CHUNK_SIZE + r.i) = true := by
      simp only [rect_covers, Bool.and_eq_true, decide_eq_true_eq]
      simp only [CHUNK_SIZE] at *
      omega
    have hcov1 : rect_covers r (r.j * CHUNK_SIZE + (r.i + 1)) = true := by
      simp only [rect_covers, Bool.and_eq_true, decide_eq_true_eq]
      simp only [CHUNK_SIZE] at *
      omega
    have h0 := huni _ hc0 hcov0
    have h1 := huni _ hc1 hcov1
    rw [parity_slab_mask d s hs1 hs2 r.i r.j
      (by simp only [CHUNK_SIZE] at *; omega)
      (by simp only [CHUNK_SIZE] at *; omega)] at h0
    rw [parity_slab_mask d s hs1 hs2 (r.i + 1) r.j
      (by simp only [CHUNK_SIZE] at *; omega)
      (by simp only [CHUNK_SIZE] at *; omega)] at h1
    by_cases hp : (s + r.i + r.j) % 2 = 1
    · rw [if_pos hp] at h0
      rw [if_neg (by push_cast; omega)] at h1
      omega
    · rw [if_neg hp] at h0
      rw [if_pos (by push_cast; omega)] at h1
      omega
  · by_contra hne
    have hh2 : 2 ≤ r.h := by omega
    have hc0 : r.j * CHUNK_SIZE + r.i < CHUNK_SIZE * CHUNK_SIZE := by
      simp only [CHUNK_SIZE] at *
      omega
    have hc1 : (r.j + 1) * CHUNK_SIZE + r.i < CHUNK_SIZE * CHUNK_SIZE := by
      simp only [CHUNK_SIZE] at *
      omega
    have hcov0 : rect_covers r (r.j * CHUNK_SIZE + r.i) = true := by
      simp only [rect_covers, Bool.and_eq_true, decide_eq_true_eq]
      simp only [CHUNK_SIZE] at *
      omega
    have hcov1 : rect_covers r ((r.j + 1) * CHUNK_SIZE + r.i) = true := by
      simp only [rect_covers, Bool.and_eq_true, decide_eq_true_eq]
      simp only [CHUNK_SIZE] at *
      omega
    have h0 := huni _ hc0 hcov0
    have h1 := huni _ hc1 hcov1
    rw [parity_slab_mask d s hs1 hs2 r.i r.j
      (by simp only [CHUNK_SIZE] at *; omega)
      (by simp only [CHUNK_SIZE] at *; omega)] at h0
    rw [parity_slab_mask d s hs1 hs2 r.i (r.j + 1)
      (by simp only [CHUNK_SIZE] at *; omega)
      (by simp only [CHUNK_SIZE] at *; omega)] at h1
    by_cases hp : (s + r.i + r.j) % 2 = 1
    · rw [if_pos hp] at h0
      rw [if_neg (by push_cast; omega)] at h1
      omega
    · rw [if_neg hp] at h0
      rw [if_pos (by push_cast; omega)] at h1
      omega

theorem parity_slab_len (d : Fin 3) (s : Int) (hs1 : -1 ≤ s)
    (hs2 : s < (CHUNK_SIZE : Int)) :
    (slab_rects parityBlocks parityNb d s).length
      = CHUNK_SIZE * CHUNK_SIZE := by
  have hall : ∀ c ∈ Finset.range (CHUNK_SIZE * CHUNK_SIZE),
      (if slab_mask parityBlocks parityNb d s c ≠ 0 then (1 : Nat) else 0)
        = 1 := by
    intro c hc
    rw [Finset.mem_range] at hc
    refine if_pos ?_
    have hcu : c % CHUNK_SIZE < CHUNK_SIZE := by
      simp only [CHUNK_SIZE] at *
      omega
    have hcv : c / CHUNK_SIZE < CHUNK_SIZE := by
      simp only [CHUNK_SIZE] at *
      omega
    have hdecomp : c = (c / CHUNK_SIZE) * CHUNK_SIZE + c % CHUNK_SIZE := by
      simp only [CHUNK_SIZE] at *
      omega
    rw [hdecomp, parity_slab_mask d s hs1 hs2 _ _ hcu hcv]
    split <;> omega
  have h1 : ((slab_rects parityBlocks parityNb d s).map
      (fun r => ∑ c ∈ Finset.range (CHUNK_SIZE * CHUNK_SIZE),
        (if rect_covers r c then (1 : Nat) else 0))).sum
      = ((slab_rects parityBlocks parityNb d s).map (fun _ => (1 : Nat))).sum := by
    refine congrArg List.sum (List.map_congr_left (fun r hr => ?_))
    obtain ⟨hws, hhs⟩ := parity_rects_small d s hs1 hs2 r hr
    obtain ⟨-, -, hiw, hjh, -, -⟩ := slab_rects_wf parityBlocks parityNb d s r hr
    exact rect_cover_sum_one r hws hhs hiw hjh
  have h2 : ∑ c ∈ Finset.range (CHUNK_SIZE * CHUNK_SIZE),
      (slab_rects parityBlocks parityNb d s).countP (fun r => rect_covers r c)
      = CHUNK_SIZE * CHUNK_SIZE := by
    have hcc : ∀ c ∈ Finset.range (CHUNK_SIZE * CHUNK_SIZE),
        (slab_rects parityBlocks parityNb d s).countP
          (fun r => rect_covers r c) = 1 := by
      intro c hc
      rw [slab_rects_count parityBlocks parityNb d s c (Finset.mem_range.mp hc)]
      exact hall c hc
    rw [Finset.sum_congr rfl hcc]
    simp
  rw [← h2, sum_countP_covers, h1]
  simp

theorem parity_entries_len (d : Fin 3) :
    ∀ (fuel : Nat) (xd : Int), ((CHUNK_SIZE : Int) - xd).toNat = fuel →
      -1 ≤ xd →
      ((slab_entries parityBlocks parityNb d xd).map
        (fun e => e.2.length)).sum = fuel * (CHUNK_SIZE * CHUNK_SIZE) := by
  intro fuel
  induction fuel using Nat.strong_induction_on with
  | _ fuel ih =>
    intro xd hf hxd1
    by_cases hxd : xd < (CHUNK_SIZE : Int)
    · rw [slab_entries, dif_pos hxd, List.map_cons, List.sum_cons,
        parity_slab_len d xd hxd1 hxd,
        ih (((CHUNK_SIZE : Int) - (xd + 1)).toNat)
          (by simp only [CHUNK_SIZE] at *; omega) (xd + 1) rfl (by omega)]
      simp only [CHUNK_SIZE] at *
      omega
    · rw [slab_entries, dif_neg hxd]
      have h0 : fuel = 0 := by
        simp only [CHUNK_SIZE] at *
        omega
      simp [h0]

theorem axis_flatMap_len (blocks : Nat → BlockId)
    (nb : Fin 6 → Option (Nat → BlockId)) (da : Fin 3) :
    ((axis_slabs blocks nb da (-1) (fun _ => 0)).flatMap
      (fun s => s.2.map (fun r => (da, s.1, r)))).length
      = ((slab_entries blocks nb da (-1)).map (fun e => e.2.length)).sum := by
  rw [axis_slabs_eq blocks nb da (((CHUNK_SIZE : Int) - (-1)).toNat) (-1)
      (fun _ => 0) rfl (fun _ _ => rfl),
    List.length_flatMap]
  refine congrArg List.sum (List.map_congr_left (fun e _ => ?_))
  simp [Function.comp]

theorem mesh_quads_length (blocks : Nat → BlockId)
    (nb : Fin 6 → Option (Nat → BlockId)) :
    (mesh_quads blocks nb).length
      = ((slab_entries blocks nb 0 (-1)).map (fun e => e.2.length)).sum
        + ((slab_entries blocks nb 1 (-1)).map (fun e => e.2.length)).sum
        + ((slab_entries blocks nb 2 (-1)).map (fun e => e.2.length)).sum := by
  rw [mesh_quads]
  simp only [List.flatMap_cons, List.flatMap_nil, List.append_nil,
    List.length_append]
  rw [axis_flatMap_len blocks nb 0, axis_flatMap_len blocks nb 1,
    axis_flatMap_len blocks nb 2]
  ring

/-- C8 counterexample: for the 3D checkerboard with all six neighbours
generated as checkerboards, the greedy mesher emits
`3 · 33 · 1024 · 6 = 608256` vertices, exceeding
`MAX_VERTICES_PER_CHUNK = 589824` — the claimed bound fails, and the
source's sequential writes run past a buffer of that size. -/
theorem greedy_mesher_overflow :
    MAX_VERTICES_PER_CHUNK < (mesh parityBlocks parityNb).length := by
  have h := mesh_quads_length parityBlocks parityNb
  rw [parity_entries_len 0 (((CHUNK_SIZE : Int) - (-1)).toNat) (-1) rfl
      (by omega),
    parity_entries_len 1 (((CHUNK_SIZE : Int) - (-1)).toNat) (-1) rfl
      (by omega),
    parity_entries_len 2 (((CHUNK_SIZE : Int) - (-1)).toNat) (-1) rfl
      (by omega)] at h
  rw [mesh_length, h]
  simp only [MAX_VERTICES_PER_CHUNK, BLOCKS_PER_CHUNK, CHUNK_SIZE]
  decide

end greedy
